import Mathlib

/-
Verification of the possibilistic-planning engine (pp.py, search.py)
against its natural-language specification.

Modelling conventions:
* Python float plausibilities are modelled as rationals; the operations the
  code performs on them (max, min, 1 - x, comparisons) are exact.
* A Python dict from states to plausibilities is modelled as an association
  list in insertion order; `dictGet` is `dict.get(s, 0)` (the behaviour of
  `PosDist.__getitem__`) and `dictSet` is item assignment.
* Functions that can raise a Python exception return an `Option`; `none`
  models the exception escaping.
* Python object identity (used by the default `__eq__` and `__hash__` that
  `PosDist` inherits from `object`) is modelled by tagging each allocated
  distribution with an allocation id, as in the search engine's `seen` set.
-/

namespace PPR

set_option maxHeartbeats 1600000

/-- A proposition is identified solely by its name; the Python dataclass
hashes and compares by name, so the name is the whole value. -/
abbrev Proposition := String

/-- A state is a frozen set of propositions (pp.py `State`). -/
abbrev PState := Finset Proposition

/-- A state space is a frozen set of states (pp.py `StateSpace`); it is
modelled as a duplicate-free list so that the arbitrary-but-fixed iteration
order of a Python frozenset is explicit. -/
abbrev StateSpace := List PState

/-- Plausibility values, modelled as rationals. -/
abbrev Plausibility := ℚ

/-- The backing store of a `PosDist`: a Python dict in insertion order. -/
abbrev PlausMap := List (PState × Plausibility)

/-- Python `dict.get(s, 0)`: value of the first (unique) entry with key `s`,
or `0` when the key is absent (`PosDist.__getitem__`). -/
def dictGet : PlausMap → PState → Plausibility
  | [], _ => 0
  | kv :: rest, s => if kv.1 = s then kv.2 else dictGet rest s

/-- Python `s in dict`: whether a key is present. -/
def hasKey : PlausMap → PState → Bool
  | [], _ => false
  | kv :: rest, s => if kv.1 = s then true else hasKey rest s

/-- Python dict item assignment (`PosDist.__setitem__`): overwrite the entry
in place when the key is present, otherwise append it. -/
def dictSet (m : PlausMap) (s : PState) (p : Plausibility) : PlausMap :=
  if hasKey m s then
    m.map (fun kv => if kv.1 = s then (s, p) else kv)
  else
    m ++ [(s, p)]

/-- Keys of a plausibility map. -/
def keys (m : PlausMap) : List PState := m.map Prod.fst

/-- The entries with positive plausibility, in dict order: the items visited
through `PosDist.non_zero_states()`. -/
def nonZeroItems (m : PlausMap) : PlausMap := m.filter (fun kv => decide (0 < kv.2))

/-- Translation of the `PosDist` class: a state space plus the dict of
stored plausibilities. -/
structure PosDist where
  state_space : StateSpace
  plaus : PlausMap
  deriving DecidableEq

/-- Python `max` over the values of a dict: `none` models the `ValueError`
raised on an empty dict. -/
def valuesMax : PlausMap → Option Plausibility
  | [] => none
  | kv :: rest => some (rest.foldl (fun acc kv2 => max acc kv2.2) kv.2)

/-- Translation of `PosDist.is_valid`: keys inside the state space, then the
maximum stored value equals 1 (raising on an empty dict), then every value
within bounds. -/
def PosDist.is_valid (d : PosDist) : Option Bool :=
  if ¬ (∀ kv ∈ d.plaus, kv.1 ∈ d.state_space) then some false
  else
    match valuesMax d.plaus with
    | none => none
    | some m =>
      if m ≠ 1 then some false
      else some (decide (∀ kv ∈ d.plaus, 0 ≤ kv.2 ∧ kv.2 ≤ 1))

/-- Translation of the `PosEffect` dataclass. -/
structure PosEffect where
  positive_discriminants : Finset Proposition
  negative_discriminants : Finset Proposition
  consequents : List (Plausibility × Finset Proposition × Finset Proposition)
  deriving DecidableEq

/-- Translation of `PosEffect.is_valid_pos_dist`: bounds first, then the
maximum consequent plausibility must be 1 (`max` raises on no consequents). -/
def PosEffect.is_valid_pos_dist (e : PosEffect) : Option Bool :=
  if e.consequents.any (fun c => decide (c.1 < 0) || decide (1 < c.1)) then some false
  else
    match e.consequents with
    | [] => none
    | c :: rest => some (decide (rest.foldl (fun acc c2 => max acc c2.1) c.1 = 1))

/-- Translation of `apply_consequent`: the add set unioned with the part of
the state not deleted. -/
def apply_consequent (eij : Finset Proposition × Finset Proposition) (s : PState) : PState :=
  eij.1 ∪ s.filter (fun l => l ∉ eij.2)

/-- Translation of `satisfies`: all positive discriminants present and all
negative discriminants absent. -/
def satisfies (state : PState) (effect : PosEffect) : Bool :=
  decide (∀ pd ∈ effect.positive_discriminants, pd ∈ state) &&
  decide (∀ nd ∈ effect.negative_discriminants, nd ∉ state)

/-- Translation of the `PosAction` dataclass. -/
structure PosAction where
  effects : List PosEffect
  deriving DecidableEq

/-- The generator `all(e.is_valid_pos_dist() for e in self.effects)`:
short-circuits on the first invalid effect, propagates a raise. -/
def allValidPosDist : List PosEffect → Option Bool
  | [] => some true
  | e :: rest =>
    match e.is_valid_pos_dist with
    | none => none
    | some false => some false
    | some true => allValidPosDist rest

/-- Translation of `PosAction.is_valid`: every effect locally normalized and
every state of the space satisfied by exactly one effect. -/
def PosAction.is_valid (a : PosAction) (state_space : StateSpace) : Option Bool :=
  match allValidPosDist a.effects with
  | none => none
  | some false => some false
  | some true =>
    some (decide (∀ s ∈ state_space, (a.effects.filter (fun e => satisfies s e)).length = 1))

/-- Translation of `PosAction.find_applicable_effect`: first effect whose
discriminant is satisfied; `none` models the `ValueError`. -/
def PosAction.find_applicable_effect (a : PosAction) (s : PState) : Option PosEffect :=
  a.effects.find? (fun e => satisfies s e)

/-- Translation of `compute_posdist_from_state_action`: locate the applicable
effect and fold its consequents into a fresh dict, keeping the highest
plausibility per resulting state. -/
def compute_posdist_from_state_action (s : PState) (action : PosAction)
    (state_space : StateSpace) : Option PosDist :=
  match action.find_applicable_effect s with
  | none => none
  | some effect =>
    some ⟨state_space,
      effect.consequents.foldl
        (fun m c =>
          dictSet m (apply_consequent (c.2.1, c.2.2) s)
            (max (dictGet m (apply_consequent (c.2.1, c.2.2) s)) c.1))
        []⟩

/-- The body of the outer loop of `compute_posdist_from_curpos_action` for
one non-zero predecessor entry `kv`: compute the per-state distribution and
fold its non-zero resulting states into the accumulator, combining with
`min` against the predecessor plausibility and `max` against the value
already accumulated. -/
def curposStep (dist : PosDist) (action : PosAction) (m : PlausMap)
    (kv : PState × Plausibility) : Option PlausMap := do
  let per ← compute_posdist_from_state_action kv.1 action dist.state_space
  pure ((nonZeroItems per.plaus).foldl
    (fun m2 kv2 =>
      dictSet m2 kv2.1
        (max (dictGet m2 kv2.1)
          (min (dictGet per.plaus kv2.1) (dictGet dist.plaus kv.1))))
    m)

/-- Translation of `compute_posdist_from_curpos_action`: iterate the non-zero
states of the current distribution, combine each per-state transition value
with the current plausibility by `min`, and maximize across predecessors. -/
def compute_posdist_from_curpos_action (dist : PosDist) (action : PosAction) :
    Option PosDist := do
  let folded ← (nonZeroItems dist.plaus).foldlM (curposStep dist action) []
  pure ⟨dist.state_space, folded⟩

/-- The pair loop of `compute_necdist_from_pos_action` for one predecessor:
for every ordered pair of space states with distinct components, min-fold the
candidate `max(1 - dist[s0], 1 - per[sNC])` into the entry of `sN`. -/
def necPairs (space : StateSpace) (distm perm : PlausMap) (s0 : PState)
    (m : PlausMap) : PlausMap :=
  space.foldl
    (fun m2 sN =>
      space.foldl
        (fun m3 sNC =>
          if sN ≠ sNC then
            dictSet m3 sN
              (min (dictGet m3 sN)
                (max (1 - dictGet distm s0) (1 - dictGet perm sNC)))
          else m3)
        m2)
    m

/-- The body of the predecessor loop of `compute_necdist_from_pos_action`. -/
def necStep (dist : PosDist) (action : PosAction) (m : PlausMap)
    (s0 : PState) : Option PlausMap := do
  let per ← compute_posdist_from_state_action s0 action dist.state_space
  pure (necPairs dist.state_space dist.plaus per.plaus s0 m)

/-- Translation of `compute_necdist_from_pos_action`: initialize every state
of the space to 1, then min-fold `max(1 - dist[s0], 1 - per[sNC])` into entry
`sN` over every predecessor `s0` and every pair `sN ≠ sNC`. -/
def compute_necdist_from_pos_action (dist : PosDist) (action : PosAction) :
    Option PosDist := do
  let space := dist.state_space
  let init : PlausMap := space.foldl (fun m s => dictSet m s 1) []
  let folded ← space.foldlM (necStep dist action) init
  pure ⟨space, folded⟩

/-- Modelled from the spec: the goal-test function `compute_nec_from_pos`
called by search.py (and example.py) is absent from the inspected sources —
only its callers appear. Spec section 4.6 gives its formula: the necessity of
a target set under a distribution is the minimum, over the states of the
space outside the target, of `1 - dist.get(s0)`, starting from 1. -/
def compute_nec_from_pos (states : List PState) (dist : PosDist) : Plausibility :=
  dist.state_space.foldl
    (fun nvalue s0 =>
      if s0 ∉ states then min nvalue (1 - dictGet dist.plaus s0) else nvalue)
    1

/-- Translation of the `PosPlanningProblem` class. -/
structure PosPlanningProblem where
  initial_distribution : PosDist
  actions : List PosAction
  goal : Finset Proposition
  deriving DecidableEq

/-- The action-validation loop of `PosPlanningProblem.is_valid`:
short-circuits on the first invalid action, propagates a raise. -/
def actionsValidLoop (state_space : StateSpace) : List PosAction → Option Bool
  | [] => some true
  | a :: rest =>
    match a.is_valid state_space with
    | none => none
    | some false => some false
    | some true => actionsValidLoop state_space rest

/-- Translation of `PosPlanningProblem.is_valid`: valid initial distribution,
valid actions, and some state strictly containing the goal set — the code
compares with `goal < s`, Python's proper-subset test. -/
def PosPlanningProblem.is_valid (p : PosPlanningProblem) : Option Bool :=
  match p.initial_distribution.is_valid with
  | none => none
  | some false => some false
  | some true =>
    match actionsValidLoop p.initial_distribution.state_space p.actions with
    | none => none
    | some false => some false
    | some true =>
      some (decide (∃ s ∈ p.initial_distribution.state_space, p.goal ⊂ s))

/-- Modelled from the spec: search.py reads `problem.goal_states`, which no
inspected source defines. Spec sections 4.7 and 4.8 describe it: every state
of the space whose proposition set includes the goal set (non-strict subset). -/
def PosPlanningProblem.goal_states (p : PosPlanningProblem) : List PState :=
  p.initial_distribution.state_space.filter (fun s => decide (p.goal ⊆ s))

/-- Outcome of a bounded run of the search loop: a plan, the `None` result of
an emptied frontier, an escaped Python exception, or fuel exhaustion (the
Python loop itself has no bound; a run that exhausts every fuel never
terminates). -/
inductive SearchResult where
  | found (plan : List PosAction)
  | noplan
  | err
  | fuelOut
  deriving DecidableEq

/-- The inner `for action in problem.actions` loop of the search: apply the
action (a raise aborts the whole search), allocate a fresh object id for the
new distribution, and enqueue it unless its id is already in `seen` — the
`seen` set holds object ids because `PosDist` inherits identity `__eq__` and
`__hash__` from `object`. -/
def expandLoop (pladist : PosDist) (plan : List PosAction) :
    List PosAction → List (Nat × PosDist × List PosAction) → List Nat → Nat →
    Option (List (Nat × PosDist × List PosAction) × List Nat × Nat)
  | [], q, sn, c => some (q, sn, c)
  | action :: rest, q, sn, c =>
    match compute_posdist_from_curpos_action pladist action with
    | none => none
    | some next_pladist =>
      if c ∈ sn then expandLoop pladist plan rest q sn (c + 1)
      else
        expandLoop pladist plan rest
          (q ++ [(c, next_pladist, plan ++ [action])]) (sn ++ [c]) (c + 1)

/-- The `while not search_queue.empty()` loop of
`search_single_gamma_acceptable`, bounded by fuel. The queue holds
(object id, distribution, plan) triples in FIFO order. -/
def searchFuel (problem : PosPlanningProblem) (gamma : Plausibility) :
    Nat → List Nat → Nat → List (Nat × PosDist × List PosAction) → SearchResult
  | 0, _, _, _ => .fuelOut
  | _ + 1, _, _, [] => .noplan
  | fuel + 1, sn, c, (_, pladist, plan) :: rest =>
    if gamma ≤ compute_nec_from_pos problem.goal_states pladist then .found plan
    else
      match expandLoop pladist plan problem.actions rest sn c with
      | none => .err
      | some (q2, sn2, c2) => searchFuel problem gamma fuel sn2 c2 q2

/-- Translation of `search_single_gamma_acceptable`: the initial distribution
(object id 0) is both enqueued and placed in `seen`. -/
def search_single_gamma_acceptable (problem : PosPlanningProblem)
    (gamma : Plausibility) (fuel : Nat) : SearchResult :=
  searchFuel problem gamma fuel [0] 1 [(0, problem.initial_distribution, [])]

/-- Successive application of a plan's actions to a distribution by the
possibility-propagation function. -/
def applyPlan (d : PosDist) (plan : List PosAction) : Option PosDist :=
  plan.foldlM compute_posdist_from_curpos_action d

/-- All action sequences of a given length drawn from an action list, in the
order breadth-first search enqueues them. -/
def allSeqs (acts : List PosAction) : Nat → List (List PosAction)
  | 0 => [[]]
  | k + 1 => (allSeqs acts k).flatMap (fun ps => acts.map (fun a => ps ++ [a]))

/-- The transition plausibility of one effect, stated the way the spec reads:
the maximum consequent plausibility over the consequents that map state `s`
to state `t`, and 0 when no consequent does. -/
def piVal (e : PosEffect) (s t : PState) : Plausibility :=
  ((e.consequents.filter
      (fun c => decide (apply_consequent (c.2.1, c.2.2) s = t))).map
    (fun c => c.1)).foldl max 0

/-- The transition plausibility of an action from `s` to `t`: `piVal` of the
first applicable effect, 0 when no effect applies. -/
def actionPi (a : PosAction) (s t : PState) : Plausibility :=
  match a.find_applicable_effect s with
  | some e => piVal e s t
  | none => 0

/-- The spec's max-min convolution for possibility propagation: the maximum
over predecessors of positive plausibility of the minimum of the predecessor
plausibility and the transition plausibility. -/
def posFormula (dist : PosDist) (a : PosAction) (t : PState) : Plausibility :=
  ((nonZeroItems dist.plaus).map
    (fun kv => min (dictGet dist.plaus kv.1) (actionPi a kv.1 t))).foldl max 0

/-- The spec's inf-max dual for necessity propagation: the minimum, over every
predecessor of the space and every state of the space other than the target,
of the maximum of the two complement values, starting from 1. -/
def necFormula (dist : PosDist) (a : PosAction) (sN : PState) : Plausibility :=
  (dist.state_space.flatMap
    (fun s0 =>
      (dist.state_space.filter (fun sNC => decide (sN ≠ sNC))).map
        (fun sNC =>
          max (1 - dictGet dist.plaus s0) (1 - actionPi a s0 sNC)))).foldl min 1

/-- Closure of an action over a space: every state an applicable consequent
produces from a state of the space lies back in the space. -/
def ClosedAction (a : PosAction) (space : StateSpace) : Prop :=
  ∀ s ∈ space, ∀ e, a.find_applicable_effect s = some e →
    ∀ c ∈ e.consequents, apply_consequent (c.2.1, c.2.2) s ∈ space

/-- Equality of id-tagged `PosDist` objects as Python evaluates it: `PosDist`
defines no `__eq__`, so the default identity comparison applies. -/
def pyPosDistEq (a b : Nat × PosDist) : Bool := decide (a.1 = b.1)

/-- Hash of an id-tagged `PosDist` object as Python computes it: `PosDist`
defines no `__hash__`, so the default id-derived hash applies. -/
def pyPosDistHash (a : Nat × PosDist) : Nat := a.1

/-- The set of (state, plausibility) pairs with positive plausibility: the
sparse contents the spec says equality and hashing must compare. -/
def posPairs (d : PosDist) : Finset (PState × Plausibility) :=
  (nonZeroItems d.plaus).toFinset

/-- Concrete state: the empty proposition set. -/
def stEmpty : PState := ∅

/-- Concrete state holding the single proposition p. -/
def stP : PState := {"p"}

/-- Concrete state holding the propositions p and q. -/
def stPQ : PState := {"p", "q"}

/-- Concrete state holding the single proposition q. -/
def stQ : PState := {"q"}

/-- The identity action of the spec: one effect with empty discriminants and
the single consequent (1, empty, empty). -/
def identityAction : PosAction := ⟨[⟨∅, ∅, [(1, ∅, ∅)]⟩]⟩

/-- Concrete action with a single always-applicable effect whose only
consequent surely adds the proposition q. -/
def addQAction : PosAction := ⟨[⟨∅, ∅, [(1, {"q"}, ∅)]⟩]⟩

/-- Concrete planning problem whose only state equals its goal set exactly. -/
def problemExactGoal : PosPlanningProblem := ⟨⟨[stP], [(stP, 1)]⟩, [], {"p"}⟩

/-- Concrete valid planning problem with no gamma-acceptable plan: both
states always stay fully plausible under the identity action, so the goal
necessity stays 0 while the frontier keeps growing. -/
def problemLoop : PosPlanningProblem :=
  ⟨⟨[stPQ, stEmpty], [(stPQ, 1), (stEmpty, 1)]⟩, [identityAction], {"p"}⟩

/-- Concrete valid planning problem solved by the one-step plan that adds q. -/
def problemAddQ : PosPlanningProblem :=
  ⟨⟨[stPQ, stP], [(stP, 1)]⟩, [addQAction], {"q"}⟩

/-- Concrete distribution over a space the add-q action escapes from. -/
def distEscape : PosDist := ⟨[stEmpty, stP], [(stEmpty, 1)]⟩

/-- Concrete one-state distribution whose single state the add-q action maps
out of the space. -/
def distSingle : PosDist := ⟨[stEmpty], [(stEmpty, 1)]⟩

/-- Concrete distribution used by witnesses of the propagation claims. -/
def distAddQ : PosDist := ⟨[stPQ, stP], [(stP, 1)]⟩

/-- The distribution every node of the stuck search over `problemLoop`
carries: both states fully plausible. -/
def loopDist : PosDist := ⟨[stPQ, stEmpty], [(stPQ, 1), (stEmpty, 1)]⟩

/-- The data a queue node contributes to the breadth-first argument once the
never-firing seen-set bookkeeping is erased: its distribution and plan. -/
def stripNode (nd : Nat × PosDist × List PosAction) : PosDist × List PosAction :=
  (nd.2.1, nd.2.2)

/-- The children the inner action loop builds from one dequeued node, without
the id bookkeeping; `none` models a raise while applying some action. -/
def childNodes (pladist : PosDist) (plan : List PosAction) (acts : List PosAction) :
    Option (List (PosDist × List PosAction)) :=
  acts.mapM (fun a =>
    (compute_posdist_from_curpos_action pladist a).map (fun nd => (nd, plan ++ [a])))

/-- The search loop with the seen-set bookkeeping erased: pure breadth-first
search that enqueues every child. Under the identity-based seen set the real
loop behaves exactly like this. -/
def pureSearch (problem : PosPlanningProblem) (gamma : Plausibility) :
    Nat → List (PosDist × List PosAction) → SearchResult
  | 0, _ => .fuelOut
  | _ + 1, [] => .noplan
  | fuel + 1, (pladist, plan) :: rest =>
    if gamma ≤ compute_nec_from_pos problem.goal_states pladist then .found plan
    else
      match childNodes pladist plan problem.actions with
      | none => .err
      | some ch => pureSearch problem gamma fuel (rest ++ ch)

/-- One breadth-first expansion level over plain plans. -/
def expandP (acts : List PosAction) (done : List (List PosAction)) :
    List (List PosAction) :=
  done.flatMap (fun ps => acts.map (fun a => ps ++ [a]))

/-- A plan fails the goal test: applying it succeeds and yields a frontier
distribution whose goal necessity is below gamma. -/
def FailsPlan (problem : PosPlanningProblem) (gamma : Plausibility)
    (ps : List PosAction) : Prop :=
  ∃ dd, applyPlan problem.initial_distribution ps = some dd ∧
    compute_nec_from_pos problem.goal_states dd < gamma

/-- What the claim promises of a returned plan: built from the problem's
actions, its frontier distribution passes the goal test, and every strictly
shorter plan built from the problem's actions fails the goal test — the
returned plan is a shortest gamma-acceptable plan. -/
def GoodPlan (problem : PosPlanningProblem) (gamma : Plausibility)
    (plan : List PosAction) : Prop :=
  (∀ a ∈ plan, a ∈ problem.actions) ∧
  (∃ dd, applyPlan problem.initial_distribution plan = some dd ∧
    gamma ≤ compute_nec_from_pos problem.goal_states dd) ∧
  (∀ ps, ps.length < plan.length → (∀ a ∈ ps, a ∈ problem.actions) →
    FailsPlan problem gamma ps)

/-- Every plan built from the problem's actions fails the goal test. -/
def AllPlansFail (problem : PosPlanningProblem) (gamma : Plausibility) : Prop :=
  ∀ ps, (∀ a ∈ ps, a ∈ problem.actions) → FailsPlan problem gamma ps

/-- The breadth-first invariant: the processed plans are a prefix of a level
of the length-ordered enumeration of action sequences, the queue holds the
rest of that level followed by the children of the processed prefix, every
node's distribution is the result of its plan, and everything processed so
far — all strictly shorter levels and the prefix — failed the goal test. -/
def BfsInv (problem : PosPlanningProblem) (gamma : Plausibility)
    (q : List (PosDist × List PosAction)) : Prop :=
  ∃ d done todo,
    allSeqs problem.actions d = done ++ todo ∧
    q.map Prod.snd = todo ++ expandP problem.actions done ∧
    (∀ nd ∈ q, applyPlan problem.initial_distribution nd.2 = some nd.1) ∧
    (∀ k, k < d → ∀ ps ∈ allSeqs problem.actions k, FailsPlan problem gamma ps) ∧
    (∀ ps ∈ done, FailsPlan problem gamma ps)

theorem foldl_max_init_le (l : List ℚ) (init : ℚ) : init ≤ l.foldl max init := by
  induction l generalizing init with
  | nil => simp
  | cons x xs ih =>
    exact le_trans (le_max_left init x) (ih (max init x))

theorem foldl_max_le_of_mem {l : List ℚ} {x : ℚ} (h : x ∈ l) (init : ℚ) :
    x ≤ l.foldl max init := by
  induction l generalizing init with
  | nil => cases h
  | cons y ys ih =>
    rcases List.mem_cons.mp h with h1 | h1
    · subst h1
      exact le_trans (le_max_right init x) (foldl_max_init_le ys (max init x))
    · exact ih h1 (max init y)

theorem foldl_max_mem_or (l : List ℚ) (init : ℚ) :
    l.foldl max init = init ∨ l.foldl max init ∈ l := by
  induction l generalizing init with
  | nil => left; rfl
  | cons x xs ih =>
    rcases ih (max init x) with h | h
    · rcases max_choice init x with h2 | h2
      · left; simpa [h2] using h
      · right; simp only [List.foldl_cons]
        rw [h, h2]; exact List.mem_cons_self x xs
    · right; exact List.mem_cons_of_mem x h

theorem foldl_max_le {l : List ℚ} {b init : ℚ} (h0 : init ≤ b)
    (h : ∀ x ∈ l, x ≤ b) : l.foldl max init ≤ b := by
  rcases foldl_max_mem_or l init with h1 | h1
  · rw [h1]; exact h0
  · exact h _ h1

theorem foldl_min_le_init (l : List ℚ) (init : ℚ) : l.foldl min init ≤ init := by
  induction l generalizing init with
  | nil => simp
  | cons x xs ih =>
    exact le_trans (ih (min init x)) (min_le_left init x)

theorem foldl_min_le_of_mem {l : List ℚ} {x : ℚ} (h : x ∈ l) (init : ℚ) :
    l.foldl min init ≤ x := by
  induction l generalizing init with
  | nil => cases h
  | cons y ys ih =>
    rcases List.mem_cons.mp h with h1 | h1
    · subst h1
      exact le_trans (foldl_min_le_init ys (min init x)) (min_le_right init x)
    · exact ih h1 (min init y)

theorem foldl_min_mem_or (l : List ℚ) (init : ℚ) :
    l.foldl min init = init ∨ l.foldl min init ∈ l := by
  induction l generalizing init with
  | nil => left; rfl
  | cons x xs ih =>
    rcases ih (min init x) with h | h
    · rcases min_choice init x with h2 | h2
      · left; simpa [h2] using h
      · right; simp only [List.foldl_cons]
        rw [h, h2]; exact List.mem_cons_self x xs
    · right; exact List.mem_cons_of_mem x h

theorem le_foldl_min {l : List ℚ} {b init : ℚ} (h0 : b ≤ init)
    (h : ∀ x ∈ l, b ≤ x) : b ≤ l.foldl min init := by
  rcases foldl_min_mem_or l init with h1 | h1
  · rw [h1]; exact h0
  · exact h _ h1

theorem hasKey_eq_false {m : PlausMap} {s : PState} (h : hasKey m s = false) :
    ∀ kv ∈ m, kv.1 ≠ s := by
  induction m with
  | nil => intro kv hkv; cases hkv
  | cons kv0 m ih =>
    intro kv hkv
    rw [hasKey] at h
    by_cases h0 : kv0.1 = s
    · rw [if_pos h0] at h; cases h
    · rw [if_neg h0] at h
      rcases List.mem_cons.mp hkv with h1 | h1
      · exact h1 ▸ h0
      · exact ih h kv h1

theorem hasKey_eq_true {m : PlausMap} {s : PState} (h : hasKey m s = true) :
    ∃ kv ∈ m, kv.1 = s := by
  induction m with
  | nil => cases h
  | cons kv0 m ih =>
    rw [hasKey] at h
    by_cases h0 : kv0.1 = s
    · exact ⟨kv0, List.mem_cons_self kv0 m, h0⟩
    · rw [if_neg h0] at h
      rcases ih h with ⟨kv, hkv, hks⟩
      exact ⟨kv, List.mem_cons_of_mem kv0 hkv, hks⟩

theorem dictGet_append_keyfree {m : PlausMap} {s : PState} (p : Plausibility)
    (t : PState) (hnp : ∀ kv ∈ m, kv.1 ≠ s) :
    dictGet (m ++ [(s, p)]) t = if t = s then p else dictGet m t := by
  induction m with
  | nil =>
    by_cases ht : t = s
    · subst ht
      simp [dictGet]
    · have hst : ¬ ((s, p).1 = t) := fun h => ht h.symm
      simp only [List.nil_append, dictGet, if_neg hst, if_neg ht]
  | cons kv0 m ih =>
    rw [List.cons_append]
    simp only [dictGet]
    by_cases hk : kv0.1 = t
    · have hts : ¬ t = s := fun h => hnp kv0 (List.mem_cons_self kv0 m) (hk.trans h)
      simp only [if_pos hk, if_neg hts]
    · simp only [if_neg hk]
      exact ih (fun kv hkv => hnp kv (List.mem_cons_of_mem kv0 hkv))

theorem dictGet_overwrite_ne {m : PlausMap} {s : PState} (p : Plausibility)
    {t : PState} (ht : t ≠ s) :
    dictGet (m.map fun kv => if kv.1 = s then (s, p) else kv) t = dictGet m t := by
  induction m with
  | nil => rfl
  | cons kv0 m ih =>
    rw [List.map_cons]
    by_cases h0 : kv0.1 = s
    · rw [if_pos h0, dictGet, if_neg (show ¬ (s, p).1 = t from fun h => ht h.symm),
        dictGet, if_neg (show ¬ kv0.1 = t from h0 ▸ fun h => ht h.symm)]
      exact ih
    · rw [if_neg h0, dictGet, dictGet]
      by_cases hk : kv0.1 = t
      · rw [if_pos hk, if_pos hk]
      · rw [if_neg hk, if_neg hk]
        exact ih

theorem dictGet_overwrite_self {m : PlausMap} {s : PState} (p : Plausibility)
    (hp : ∃ kv ∈ m, kv.1 = s) :
    dictGet (m.map fun kv => if kv.1 = s then (s, p) else kv) s = p := by
  induction m with
  | nil => simp at hp
  | cons kv0 m ih =>
    rw [List.map_cons]
    by_cases h0 : kv0.1 = s
    · rw [if_pos h0, dictGet, if_pos (show (s, p).1 = s from rfl)]
    · rw [if_neg h0, dictGet, if_neg h0]
      rcases hp with ⟨kv, hkv, hks⟩
      rcases List.mem_cons.mp hkv with h1 | h1
      · exact absurd (h1 ▸ hks) h0
      · exact ih ⟨kv, h1, hks⟩

theorem dictGet_dictSet (m : PlausMap) (s : PState) (p : Plausibility) (t : PState) :
    dictGet (dictSet m s p) t = if t = s then p else dictGet m t := by
  unfold dictSet
  by_cases hk : hasKey m s = true
  · rw [if_pos hk]
    by_cases ht : t = s
    · subst ht
      rw [if_pos rfl]
      exact dictGet_overwrite_self p (hasKey_eq_true hk)
    · rw [if_neg ht]
      exact dictGet_overwrite_ne p ht
  · rw [if_neg hk]
    exact dictGet_append_keyfree p t (hasKey_eq_false (Bool.eq_false_iff.mpr hk))

theorem mem_dictSet_elim {m : PlausMap} {s : PState} {p : Plausibility}
    {kv : PState × Plausibility} (h : kv ∈ dictSet m s p) :
    kv = (s, p) ∨ kv ∈ m := by
  unfold dictSet at h
  by_cases hk : hasKey m s = true
  · rw [if_pos hk] at h
    rcases List.mem_map.mp h with ⟨kv0, hkv0, heq⟩
    by_cases h0 : kv0.1 = s
    · rw [if_pos h0] at heq
      exact Or.inl heq.symm
    · rw [if_neg h0] at heq
      exact Or.inr (heq ▸ hkv0)
  · rw [if_neg hk] at h
    rcases List.mem_append.mp h with h1 | h1
    · exact Or.inr h1
    · exact Or.inl (List.mem_singleton.mp h1)

theorem keys_dictSet_overwrite {m : PlausMap} {s : PState} (p : Plausibility)
    (hk : hasKey m s = true) :
    (dictSet m s p).map Prod.fst = m.map Prod.fst := by
  unfold dictSet
  rw [if_pos hk, List.map_map]
  apply List.map_congr_left
  intro kv _
  by_cases h0 : kv.1 = s
  · simp [h0]
  · simp [h0]

theorem nodup_keys_dictSet {m : PlausMap} {s : PState} (p : Plausibility)
    (h : (m.map Prod.fst).Nodup) : ((dictSet m s p).map Prod.fst).Nodup := by
  by_cases hk : hasKey m s = true
  · rw [keys_dictSet_overwrite p hk]
    exact h
  · unfold dictSet
    rw [if_neg hk, List.map_append]
    refine List.Nodup.append h (List.nodup_singleton s) ?hdisj
    intro x hx hx2
    rcases List.mem_map.mp hx with ⟨kv, hkv, heq⟩
    rcases List.mem_singleton.mp hx2 with rfl
    exact hasKey_eq_false (Bool.eq_false_iff.mpr hk) kv hkv heq

theorem dictGet_of_mem_nodup {m : PlausMap} {kv : PState × Plausibility}
    (hnd : (m.map Prod.fst).Nodup) (h : kv ∈ m) : dictGet m kv.1 = kv.2 := by
  induction m with
  | nil => cases h
  | cons kv0 m ih =>
    rw [List.map_cons, List.nodup_cons] at hnd
    rcases List.mem_cons.mp h with h1 | h1
    · subst h1
      rw [dictGet, if_pos rfl]
    · rw [dictGet]
      by_cases h0 : kv0.1 = kv.1
      · exact absurd (h0 ▸ List.mem_map_of_mem Prod.fst h1) hnd.1
      · rw [if_neg h0]
        exact ih hnd.2 h1

theorem dictGet_mem_of_ne_zero {m : PlausMap} {t : PState}
    (h : dictGet m t ≠ 0) : ∃ kv ∈ m, kv.1 = t ∧ kv.2 = dictGet m t := by
  induction m with
  | nil => exact absurd rfl h
  | cons kv0 m ih =>
    rw [dictGet] at h ⊢
    by_cases h0 : kv0.1 = t
    · rw [if_pos h0] at h ⊢
      exact ⟨kv0, List.mem_cons_self kv0 m, h0, rfl⟩
    · rw [if_neg h0] at h ⊢
      rcases ih h with ⟨kv, hkv, hk1, hk2⟩
      exact ⟨kv, List.mem_cons_of_mem kv0 hkv, hk1, hk2⟩

theorem dictGet_nonneg {m : PlausMap} (h : ∀ kv ∈ m, 0 ≤ kv.2) (t : PState) :
    0 ≤ dictGet m t := by
  induction m with
  | nil => exact le_refl 0
  | cons kv0 m ih =>
    rw [dictGet]
    by_cases h0 : kv0.1 = t
    · rw [if_pos h0]
      exact h kv0 (List.mem_cons_self kv0 m)
    · rw [if_neg h0]
      exact ih (fun kv hkv => h kv (List.mem_cons_of_mem kv0 hkv))

theorem dictGet_le {m : PlausMap} {b : Plausibility} (h : ∀ kv ∈ m, kv.2 ≤ b)
    (hb : 0 ≤ b) (t : PState) : dictGet m t ≤ b := by
  induction m with
  | nil => exact hb
  | cons kv0 m ih =>
    rw [dictGet]
    by_cases h0 : kv0.1 = t
    · rw [if_pos h0]
      exact h kv0 (List.mem_cons_self kv0 m)
    · rw [if_neg h0]
      exact ih (fun kv hkv => h kv (List.mem_cons_of_mem kv0 hkv))

theorem foldl_pairs_eq_map (rest : PlausMap) (init : Plausibility) :
    rest.foldl (fun acc kv2 => max acc kv2.2) init =
      (rest.map Prod.snd).foldl max init := by
  rw [List.foldl_map]

theorem valuesMax_spec {l : PlausMap} {b : Plausibility} (h : valuesMax l = some b) :
    (∃ kv ∈ l, kv.2 = b) ∧ ∀ kv ∈ l, kv.2 ≤ b := by
  cases l with
  | nil => cases h
  | cons kv0 rest =>
    rw [valuesMax, Option.some_inj, foldl_pairs_eq_map] at h
    constructor
    · rcases foldl_max_mem_or (rest.map Prod.snd) kv0.2 with h1 | h1
      · exact ⟨kv0, List.mem_cons_self kv0 rest, h ▸ h1.symm ▸ rfl⟩
      · rcases List.mem_map.mp h1 with ⟨kv, hkv, heq⟩
        exact ⟨kv, List.mem_cons_of_mem kv0 hkv, heq.trans h⟩
    · intro kv hkv
      rcases List.mem_cons.mp hkv with h1 | h1
      · rw [h1, ← h]
        exact foldl_max_init_le _ _
      · rw [← h]
        exact foldl_max_le_of_mem (List.mem_map_of_mem Prod.snd h1) kv0.2

theorem valuesMax_eq_one {l : PlausMap}
    (hle : ∀ kv ∈ l, kv.2 ≤ 1) (hex : ∃ kv ∈ l, kv.2 = 1) :
    valuesMax l = some 1 := by
  cases l with
  | nil =>
    rcases hex with ⟨kv, hkv, _⟩
    cases hkv
  | cons kv0 rest =>
    rw [valuesMax, Option.some_inj, foldl_pairs_eq_map]
    apply le_antisymm
    · apply foldl_max_le (hle kv0 (List.mem_cons_self kv0 rest))
      intro x hx
      rcases List.mem_map.mp hx with ⟨kv, hkv, heq⟩
      exact heq ▸ hle kv (List.mem_cons_of_mem kv0 hkv)
    · rcases hex with ⟨kv, hkv, hone⟩
      rcases List.mem_cons.mp hkv with h1 | h1
      · calc (1 : ℚ) = kv0.2 := by rw [← hone, h1]
          _ ≤ _ := foldl_max_init_le _ _
      · calc (1 : ℚ) = kv.2 := hone.symm
          _ ≤ _ := foldl_max_le_of_mem (List.mem_map_of_mem Prod.snd h1) kv0.2

theorem effect_valid_parts {e : PosEffect} (h : e.is_valid_pos_dist = some true) :
    (∀ c ∈ e.consequents, 0 ≤ c.1 ∧ c.1 ≤ 1) ∧ (∃ c ∈ e.consequents, c.1 = 1) := by
  unfold PosEffect.is_valid_pos_dist at h
  by_cases hany : e.consequents.any (fun c => decide (c.1 < 0) || decide (1 < c.1)) = true
  · rw [if_pos hany] at h
    cases h
  · rw [if_neg hany] at h
    have hb : ∀ c ∈ e.consequents, 0 ≤ c.1 ∧ c.1 ≤ 1 := by
      intro c hc
      have hnc : ¬ ((decide (c.1 < 0) || decide (1 < c.1)) = true) := by
        intro hcon
        exact hany (List.any_eq_true.mpr ⟨c, hc, hcon⟩)
      rw [Bool.or_eq_true, decide_eq_true_eq, decide_eq_true_eq] at hnc
      push_neg at hnc
      exact hnc
    refine ⟨hb, ?hex⟩
    rcases hcs : e.consequents with _ | ⟨c, rest⟩
    · rw [hcs] at h
      cases h
    · rw [hcs] at h
      rw [Option.some_inj] at h
      have h1 : rest.foldl (fun acc c2 => max acc c2.1) c.1 = 1 := of_decide_eq_true h
      have h2 : (rest.map Prod.fst).foldl max c.1 = 1 := by
        rw [← h1, List.foldl_map]
      rcases foldl_max_mem_or (rest.map Prod.fst) c.1 with h3 | h3
      · exact ⟨c, List.mem_cons_self c rest, (h3 ▸ h2 : c.1 = 1)⟩
      · rw [h2] at h3
        rcases List.mem_map.mp h3 with ⟨c2, hc2, heq⟩
        exact ⟨c2, List.mem_cons_of_mem c hc2, heq⟩

theorem allValidPosDist_forall {es : List PosEffect} (h : allValidPosDist es = some true) :
    ∀ e ∈ es, e.is_valid_pos_dist = some true := by
  induction es with
  | nil => intro e he; cases he
  | cons e0 rest ih =>
    intro e he
    rw [allValidPosDist] at h
    rcases hv : e0.is_valid_pos_dist with _ | b
    · rw [hv] at h; cases h
    · rw [hv] at h
      cases b with
      | false => cases h
      | true =>
        rcases List.mem_cons.mp he with h1 | h1
        · exact h1 ▸ hv
        · exact ih h e h1

theorem action_valid_parts {a : PosAction} {sp : StateSpace}
    (h : a.is_valid sp = some true) :
    (∀ e ∈ a.effects, e.is_valid_pos_dist = some true) ∧
    ∀ s ∈ sp, (a.effects.filter (fun e => satisfies s e)).length = 1 := by
  unfold PosAction.is_valid at h
  rcases hv : allValidPosDist a.effects with _ | b
  · rw [hv] at h; cases h
  · rw [hv] at h
    cases b with
    | false => cases h
    | true =>
      rw [Option.some_inj] at h
      exact ⟨allValidPosDist_forall hv, of_decide_eq_true h⟩

theorem find_applicable_spec {a : PosAction} {s : PState} {e : PosEffect}
    (h : a.find_applicable_effect s = some e) :
    e ∈ a.effects ∧ satisfies s e = true :=
  ⟨List.mem_of_find?_eq_some h, List.find?_some h⟩

theorem find_applicable_of_filter_one {a : PosAction} {s : PState}
    (h : (a.effects.filter (fun e => satisfies s e)).length = 1) :
    ∃ e, a.find_applicable_effect s = some e := by
  have hpos : 0 < (a.effects.filter (fun e => satisfies s e)).length := by
    rw [h]; exact Nat.one_pos
  rcases List.exists_mem_of_length_pos hpos with ⟨e, he⟩
  have := List.mem_filter.mp he
  have hsome : (a.effects.find? (fun e => satisfies s e)).isSome = true :=
    List.find?_isSome.mpr ⟨e, this.1, this.2⟩
  rcases Option.isSome_iff_exists.mp hsome with ⟨e2, he2⟩
  exact ⟨e2, he2⟩

theorem find_of_valid {a : PosAction} {sp : StateSpace}
    (hv : a.is_valid sp = some true) {s : PState} (hs : s ∈ sp) :
    ∃ e, a.find_applicable_effect s = some e :=
  find_applicable_of_filter_one ((action_valid_parts hv).2 s hs)

theorem piVal_nonneg (e : PosEffect) (s t : PState) : 0 ≤ piVal e s t :=
  foldl_max_init_le _ 0

theorem actionPi_nonneg (a : PosAction) (s t : PState) : 0 ≤ actionPi a s t := by
  unfold actionPi
  rcases a.find_applicable_effect s with _ | e
  · exact le_refl 0
  · exact piVal_nonneg e s t

theorem piVal_le_one {e : PosEffect} (hb : ∀ c ∈ e.consequents, c.1 ≤ 1)
    (s t : PState) : piVal e s t ≤ 1 := by
  apply foldl_max_le zero_le_one
  intro x hx
  rcases List.mem_map.mp hx with ⟨c, hc, heq⟩
  exact heq ▸ hb c (List.mem_filter.mp hc).1

theorem piVal_ge_of_maps {e : PosEffect} {s t : PState}
    {c : Plausibility × Finset Proposition × Finset Proposition}
    (hc : c ∈ e.consequents) (ht : apply_consequent (c.2.1, c.2.2) s = t) :
    c.1 ≤ piVal e s t := by
  apply foldl_max_le_of_mem
  exact List.mem_map_of_mem _ (List.mem_filter.mpr ⟨hc, decide_eq_true ht⟩)

theorem exists_piVal_one {e : PosEffect} (s : PState)
    (hb : ∀ c ∈ e.consequents, c.1 ≤ 1) (hex : ∃ c ∈ e.consequents, c.1 = 1) :
    ∃ t, piVal e s t = 1 ∧ ∃ c ∈ e.consequents, apply_consequent (c.2.1, c.2.2) s = t := by
  rcases hex with ⟨c, hc, hone⟩
  refine ⟨apply_consequent (c.2.1, c.2.2) s, ?heq, c, hc, rfl⟩
  apply le_antisymm (piVal_le_one hb s _)
  calc (1 : ℚ) = c.1 := hone.symm
    _ ≤ _ := piVal_ge_of_maps hc rfl

theorem consequents_fold_get
    (cs : List (Plausibility × Finset Proposition × Finset Proposition))
    (s : PState) (m : PlausMap) (t : PState) :
    dictGet
      (cs.foldl
        (fun m c =>
          dictSet m (apply_consequent (c.2.1, c.2.2) s)
            (max (dictGet m (apply_consequent (c.2.1, c.2.2) s)) c.1))
        m) t =
    ((cs.filter (fun c => decide (apply_consequent (c.2.1, c.2.2) s = t))).map
      (fun c => c.1)).foldl max (dictGet m t) := by
  induction cs generalizing m with
  | nil => rfl
  | cons c rest ih =>
    rw [List.foldl_cons, ih]
    by_cases hc : apply_consequent (c.2.1, c.2.2) s = t
    · have hd : (decide (apply_consequent (c.2.1, c.2.2) s = t)) = true := decide_eq_true hc
      simp only [List.filter_cons, hd, if_true, List.map_cons, List.foldl_cons]
      congr 1
      rw [dictGet_dictSet, if_pos hc.symm, hc]
    · have hd : (decide (apply_consequent (c.2.1, c.2.2) s = t)) = false := decide_eq_false hc
      simp only [List.filter_cons, hd, Bool.false_eq_true, if_false]
      congr 1
      rw [dictGet_dictSet, if_neg (fun h => hc h.symm)]

theorem nodup_keys_consequents_fold
    (cs : List (Plausibility × Finset Proposition × Finset Proposition))
    (s : PState) (m : PlausMap) (h : (m.map Prod.fst).Nodup) :
    ((cs.foldl
        (fun m c =>
          dictSet m (apply_consequent (c.2.1, c.2.2) s)
            (max (dictGet m (apply_consequent (c.2.1, c.2.2) s)) c.1))
        m).map Prod.fst).Nodup := by
  induction cs generalizing m with
  | nil => exact h
  | cons c rest ih =>
    rw [List.foldl_cons]
    exact ih _ (nodup_keys_dictSet _ h)

theorem mem_consequents_fold
    (cs : List (Plausibility × Finset Proposition × Finset Proposition))
    (s : PState) (m : PlausMap) {kv : PState × Plausibility}
    (h : kv ∈ cs.foldl
        (fun m c =>
          dictSet m (apply_consequent (c.2.1, c.2.2) s)
            (max (dictGet m (apply_consequent (c.2.1, c.2.2) s)) c.1))
        m) :
    kv ∈ m ∨ ∃ c ∈ cs, kv.1 = apply_consequent (c.2.1, c.2.2) s := by
  induction cs generalizing m with
  | nil => exact Or.inl h
  | cons c rest ih =>
    rw [List.foldl_cons] at h
    rcases ih _ h with h1 | h1
    · rcases mem_dictSet_elim h1 with h2 | h2
      · exact Or.inr ⟨c, List.mem_cons_self c rest, by rw [h2]⟩
      · exact Or.inl h2
    · rcases h1 with ⟨c2, hc2, heq⟩
      exact Or.inr ⟨c2, List.mem_cons_of_mem c hc2, heq⟩

theorem state_action_char {s : PState} {action : PosAction} (sp : StateSpace)
    {e : PosEffect} (hf : action.find_applicable_effect s = some e) :
    ∃ per, compute_posdist_from_state_action s action sp = some per ∧
      per.state_space = sp ∧
      (∀ t, dictGet per.plaus t = piVal e s t) ∧
      ((per.plaus.map Prod.fst).Nodup) ∧
      (∀ kv ∈ per.plaus, ∃ c ∈ e.consequents,
        kv.1 = apply_consequent (c.2.1, c.2.2) s) := by
  have hsome : compute_posdist_from_state_action s action sp =
      some ⟨sp, e.consequents.foldl
        (fun m c =>
          dictSet m (apply_consequent (c.2.1, c.2.2) s)
            (max (dictGet m (apply_consequent (c.2.1, c.2.2) s)) c.1))
        []⟩ := by
    rw [compute_posdist_from_state_action, hf]
  refine ⟨_, hsome, rfl, ?hget, ?hnd, ?hmem⟩
  · intro t
    rw [consequents_fold_get]
    rfl
  · exact nodup_keys_consequents_fold e.consequents s [] List.nodup_nil
  · intro kv hkv
    rcases mem_consequents_fold e.consequents s [] hkv with h1 | h1
    · cases h1
    · exact h1

theorem dictGet_nonpos_of_not_nonzero {pm : PlausMap} {t : PState}
    (h : t ∉ (nonZeroItems pm).map Prod.fst) : dictGet pm t ≤ 0 := by
  induction pm with
  | nil => exact le_refl 0
  | cons kv rest ih =>
    rw [dictGet]
    rw [nonZeroItems, List.filter_cons] at h
    by_cases hk : kv.1 = t
    · rw [if_pos hk]
      by_cases hp : (0 : ℚ) < kv.2
      · exfalso
        rw [if_pos (decide_eq_true hp)] at h
        apply h
        rw [List.map_cons, hk]
        exact List.mem_cons_self t _
      · exact not_lt.mp hp
    · rw [if_neg hk]
      apply ih
      intro hmem
      apply h
      by_cases hp : (0 : ℚ) < kv.2
      · rw [if_pos (decide_eq_true hp), List.map_cons]
        exact List.mem_cons_of_mem kv.1 hmem
      · rw [if_neg (by simpa using hp)]
        exact hmem

theorem fold_minmax_get (L pm : PlausMap) (d0 : Plausibility) (m : PlausMap)
    (t : PState) :
    dictGet
      (L.foldl
        (fun m2 kv2 =>
          dictSet m2 kv2.1
            (max (dictGet m2 kv2.1) (min (dictGet pm kv2.1) d0)))
        m) t =
    if t ∈ L.map Prod.fst then max (dictGet m t) (min (dictGet pm t) d0)
    else dictGet m t := by
  induction L generalizing m with
  | nil => rw [List.map_nil, if_neg (List.not_mem_nil t)]; rfl
  | cons kv2 rest ih =>
    rw [List.foldl_cons, ih, List.map_cons]
    by_cases h2 : t = kv2.1
    · have hmem : t ∈ kv2.1 :: rest.map Prod.fst := h2 ▸ List.mem_cons_self _ _
      rw [if_pos hmem, dictGet_dictSet, if_pos h2, ← h2]
      by_cases h1 : t ∈ rest.map Prod.fst
      · rw [if_pos h1, max_assoc, max_self]
      · rw [if_neg h1]
    · rw [dictGet_dictSet, if_neg h2]
      by_cases h1 : t ∈ rest.map Prod.fst
      · rw [if_pos h1, if_pos (List.mem_cons_of_mem kv2.1 h1)]
      · rw [if_neg h1, if_neg (by
          intro hc
          rcases List.mem_cons.mp hc with hc1 | hc1
          · exact h2 hc1
          · exact h1 hc1)]

theorem fold_minmax_nonneg (L pm : PlausMap) (d0 : Plausibility) (m : PlausMap)
    (hm : ∀ u, 0 ≤ dictGet m u) (u : PState) :
    0 ≤ dictGet
      (L.foldl
        (fun m2 kv2 =>
          dictSet m2 kv2.1
            (max (dictGet m2 kv2.1) (min (dictGet pm kv2.1) d0)))
        m) u := by
  rw [fold_minmax_get]
  by_cases h1 : u ∈ L.map Prod.fst
  · rw [if_pos h1]
    exact le_trans (hm u) (le_max_left _ _)
  · rw [if_neg h1]
    exact hm u

theorem inner_fold_uniform (pm : PlausMap) (d0 : Plausibility) (m : PlausMap)
    (hm : ∀ u, 0 ≤ dictGet m u) (t : PState) :
    dictGet
      ((nonZeroItems pm).foldl
        (fun m2 kv2 =>
          dictSet m2 kv2.1
            (max (dictGet m2 kv2.1) (min (dictGet pm kv2.1) d0)))
        m) t =
    max (dictGet m t) (min (dictGet pm t) d0) := by
  rw [fold_minmax_get]
  by_cases h1 : t ∈ (nonZeroItems pm).map Prod.fst
  · rw [if_pos h1]
  · rw [if_neg h1]
    have hle : min (dictGet pm t) d0 ≤ dictGet m t :=
      le_trans (min_le_left _ _) (le_trans (dictGet_nonpos_of_not_nonzero h1) (hm t))
    exact (max_eq_left hle).symm

theorem fold_minmax_nodup (L pm : PlausMap) (d0 : Plausibility) (m : PlausMap)
    (h : (m.map Prod.fst).Nodup) :
    ((L.foldl
        (fun m2 kv2 =>
          dictSet m2 kv2.1
            (max (dictGet m2 kv2.1) (min (dictGet pm kv2.1) d0)))
        m).map Prod.fst).Nodup := by
  induction L generalizing m with
  | nil => exact h
  | cons kv2 rest ih =>
    rw [List.foldl_cons]
    exact ih _ (nodup_keys_dictSet _ h)

theorem mem_fold_minmax {L pm : PlausMap} {d0 : Plausibility} {m : PlausMap}
    {kv : PState × Plausibility}
    (h : kv ∈ L.foldl
        (fun m2 kv2 =>
          dictSet m2 kv2.1
            (max (dictGet m2 kv2.1) (min (dictGet pm kv2.1) d0)))
        m) :
    kv ∈ m ∨ kv.1 ∈ L.map Prod.fst := by
  induction L generalizing m with
  | nil => exact Or.inl h
  | cons kv2 rest ih =>
    rw [List.foldl_cons] at h
    rcases ih h with h1 | h1
    · rcases mem_dictSet_elim h1 with h2 | h2
      · right
        rw [List.map_cons, h2]
        exact List.mem_cons_self kv2.1 _
      · exact Or.inl h2
    · exact Or.inr (List.mem_cons_of_mem kv2.1 h1)

theorem curpos_fold_char (dist : PosDist) (action : PosAction) :
    ∀ (L : PlausMap) (m : PlausMap),
    (∀ kv ∈ L, ∃ e, action.find_applicable_effect kv.1 = some e) →
    (∀ u, 0 ≤ dictGet m u) →
    ∃ F, (L.foldlM (curposStep dist action) m) = some F ∧
      (∀ t, dictGet F t =
        (L.map (fun kv => min (dictGet dist.plaus kv.1) (actionPi action kv.1 t))).foldl
          max (dictGet m t)) ∧
      (∀ u, 0 ≤ dictGet F u) ∧
      ((m.map Prod.fst).Nodup → (F.map Prod.fst).Nodup) ∧
      (∀ kv2 ∈ F, kv2 ∈ m ∨ ∃ kv ∈ L, ∃ e,
        action.find_applicable_effect kv.1 = some e ∧
        ∃ c ∈ e.consequents, kv2.1 = apply_consequent (c.2.1, c.2.2) kv.1) := by
  intro L
  induction L with
  | nil =>
    intro m _ hm
    refine ⟨m, by rw [List.foldlM_nil]; rfl, fun t => rfl, hm, fun h => h,
      fun kv2 h => Or.inl h⟩
  | cons kv rest ih =>
    intro m hL hm
    rcases hL kv (List.mem_cons_self kv rest) with ⟨e, he⟩
    rcases state_action_char dist.state_space he with ⟨per, hsome, hsp, hget, hnd, hmemper⟩
    rcases ih
        ((nonZeroItems per.plaus).foldl
          (fun m2 kv2 =>
            dictSet m2 kv2.1
              (max (dictGet m2 kv2.1)
                (min (dictGet per.plaus kv2.1) (dictGet dist.plaus kv.1))))
          m)
        (fun kv2 hkv2 => hL kv2 (List.mem_cons_of_mem kv hkv2))
        (fold_minmax_nonneg _ _ _ _ hm) with ⟨F, hFsome, hFget, hFnn, hFnd, hFmem⟩
    have hstep : curposStep dist action m kv =
        some ((nonZeroItems per.plaus).foldl
          (fun m2 kv2 =>
            dictSet m2 kv2.1
              (max (dictGet m2 kv2.1)
                (min (dictGet per.plaus kv2.1) (dictGet dist.plaus kv.1))))
          m) := by
      unfold curposStep
      rw [hsome]
      rfl
    refine ⟨F, ?hsome2, ?hget2, hFnn, ?hnd2, ?hmem2⟩
    · rw [List.foldlM_cons, hstep]
      exact hFsome
    · intro t
      rw [hFget t, List.map_cons, List.foldl_cons]
      congr 1
      rw [inner_fold_uniform _ _ _ hm t]
      congr 1
      rw [hget t, min_comm]
      congr 1
      unfold actionPi
      rw [he]
    · intro hmnd
      exact hFnd (fold_minmax_nodup _ _ _ _ hmnd)
    · intro kv2 hkv2
      rcases hFmem kv2 hkv2 with h1 | h1
      · rcases mem_fold_minmax h1 with h2 | h2
        · exact Or.inl h2
        · right
          rcases List.mem_map.mp h2 with ⟨kv3, hkv3, heq⟩
          rcases hmemper kv3 (List.mem_filter.mp hkv3).1 with ⟨c, hc, hceq⟩
          exact ⟨kv, List.mem_cons_self kv rest, e, he, c, hc, heq ▸ hceq⟩
      · rcases h1 with ⟨kv3, hkv3, hrest⟩
        exact Or.inr ⟨kv3, List.mem_cons_of_mem kv hkv3, hrest⟩

theorem curpos_char {dist : PosDist} {action : PosAction}
    (hfind : ∀ kv ∈ nonZeroItems dist.plaus, ∃ e,
      action.find_applicable_effect kv.1 = some e) :
    ∃ pd, compute_posdist_from_curpos_action dist action = some pd ∧
      pd.state_space = dist.state_space ∧
      (∀ t, dictGet pd.plaus t = posFormula dist action t) ∧
      ((pd.plaus.map Prod.fst).Nodup) ∧
      (∀ kv2 ∈ pd.plaus, ∃ kv ∈ nonZeroItems dist.plaus, ∃ e,
        action.find_applicable_effect kv.1 = some e ∧
        ∃ c ∈ e.consequents, kv2.1 = apply_consequent (c.2.1, c.2.2) kv.1) := by
  rcases curpos_fold_char dist action (nonZeroItems dist.plaus) [] hfind
      (fun u => le_refl 0) with ⟨F, hFsome, hFget, _, hFnd, hFmem⟩
  refine ⟨⟨dist.state_space, F⟩, ?hsome, rfl, ?hget, hFnd List.nodup_nil, ?hmem⟩
  · rw [compute_posdist_from_curpos_action]
    rw [hFsome]
    rfl
  · intro t
    exact hFget t
  · intro kv2 hkv2
    rcases hFmem kv2 hkv2 with h1 | h1
    · cases h1
    · exact h1

theorem init_fold_get (L : List PState) (m : PlausMap) (t : PState) :
    dictGet (L.foldl (fun m s => dictSet m s 1) m) t =
      if t ∈ L then 1 else dictGet m t := by
  induction L generalizing m with
  | nil => rw [if_neg (List.not_mem_nil t)]; rfl
  | cons s rest ih =>
    rw [List.foldl_cons, ih]
    by_cases h1 : t ∈ rest
    · rw [if_pos h1, if_pos (List.mem_cons_of_mem s h1)]
    · rw [if_neg h1, dictGet_dictSet]
      by_cases h2 : t = s
      · rw [if_pos h2, if_pos (List.mem_cons.mpr (Or.inl h2))]
      · rw [if_neg h2, if_neg (by
          intro hc
          rcases List.mem_cons.mp hc with hc1 | hc1
          · exact h2 hc1
          · exact h1 hc1)]

theorem nec_sNC_fold_get (Lc : List PState) (cand : PState → Plausibility)
    (sN : PState) (m : PlausMap) (t : PState) :
    dictGet
      (Lc.foldl
        (fun m3 sNC =>
          if sN ≠ sNC then dictSet m3 sN (min (dictGet m3 sN) (cand sNC)) else m3)
        m) t =
    if t = sN then
      ((Lc.filter (fun sNC => decide (sN ≠ sNC))).map cand).foldl min (dictGet m sN)
    else dictGet m t := by
  induction Lc generalizing m with
  | nil =>
    by_cases h1 : t = sN
    · rw [if_pos h1, h1]; rfl
    · rw [if_neg h1]; rfl
  | cons sNC rest ih =>
    rw [List.foldl_cons, ih, List.filter_cons]
    by_cases hne : sN ≠ sNC
    · rw [if_pos hne, if_pos (decide_eq_true hne), List.map_cons, List.foldl_cons]
      by_cases h1 : t = sN
      · rw [if_pos h1, if_pos h1, dictGet_dictSet, if_pos rfl]
      · rw [if_neg h1, if_neg h1, dictGet_dictSet, if_neg (h1 ∘ id)]
    · rw [if_neg hne, decide_eq_false hne]
      simp only [Bool.false_eq_true, if_false]

theorem nec_sN_fold_get (Ls : List PState) (space : StateSpace)
    (distm perm : PlausMap) (s0 : PState) (m : PlausMap) (hnd : Ls.Nodup)
    (t : PState) :
    dictGet
      (Ls.foldl
        (fun m2 sN =>
          space.foldl
            (fun m3 sNC =>
              if sN ≠ sNC then
                dictSet m3 sN
                  (min (dictGet m3 sN)
                    (max (1 - dictGet distm s0) (1 - dictGet perm sNC)))
              else m3)
            m2)
        m) t =
    if t ∈ Ls then
      ((space.filter (fun sNC => decide (t ≠ sNC))).map
        (fun sNC => max (1 - dictGet distm s0) (1 - dictGet perm sNC))).foldl
        min (dictGet m t)
    else dictGet m t := by
  induction Ls generalizing m with
  | nil => rw [if_neg (List.not_mem_nil t)]; rfl
  | cons sN rest ih =>
    rw [List.foldl_cons, ih _ (List.nodup_cons.mp hnd).2]
    by_cases h1 : t ∈ rest
    · have hts : t ≠ sN := by
        intro hc
        exact (List.nodup_cons.mp hnd).1 (hc ▸ h1)
      rw [if_pos h1, if_pos (List.mem_cons_of_mem sN h1),
        nec_sNC_fold_get, if_neg hts]
    · rw [if_neg h1, nec_sNC_fold_get]
      by_cases h2 : t = sN
      · rw [if_pos h2, if_pos (List.mem_cons.mpr (Or.inl h2)), h2]
      · rw [if_neg h2, if_neg (by
          intro hc
          rcases List.mem_cons.mp hc with hc1 | hc1
          · exact h2 hc1
          · exact h1 hc1)]

theorem necPairs_get (space : StateSpace) (distm perm : PlausMap) (s0 : PState)
    (m : PlausMap) (hnd : space.Nodup) (t : PState) :
    dictGet (necPairs space distm perm s0 m) t =
    if t ∈ space then
      ((space.filter (fun sNC => decide (t ≠ sNC))).map
        (fun sNC => max (1 - dictGet distm s0) (1 - dictGet perm sNC))).foldl
        min (dictGet m t)
    else dictGet m t := by
  unfold necPairs
  exact nec_sN_fold_get space space distm perm s0 m hnd t

theorem nec_outer_char (dist : PosDist) (action : PosAction)
    (hnd : dist.state_space.Nodup) :
    ∀ (Lo : List PState) (m : PlausMap),
    (∀ s0 ∈ Lo, ∃ e, action.find_applicable_effect s0 = some e) →
    ∃ F, Lo.foldlM (necStep dist action) m = some F ∧
      ∀ t, dictGet F t =
        if t ∈ dist.state_space then
          (Lo.flatMap (fun s0 =>
            (dist.state_space.filter (fun sNC => decide (t ≠ sNC))).map
              (fun sNC =>
                max (1 - dictGet dist.plaus s0)
                  (1 - actionPi action s0 sNC)))).foldl min (dictGet m t)
        else dictGet m t := by
  intro Lo
  induction Lo with
  | nil =>
    intro m _
    refine ⟨m, by rw [List.foldlM_nil]; rfl, fun t => ?hget⟩
    by_cases h1 : t ∈ dist.state_space
    · rw [if_pos h1, List.flatMap_nil, List.foldl_nil]
    · rw [if_neg h1]
  | cons s0 rest ih =>
    intro m hL
    rcases hL s0 (List.mem_cons_self s0 rest) with ⟨e, he⟩
    rcases state_action_char dist.state_space he with ⟨per, hsome, hsp, hget, _, _⟩
    rcases ih (necPairs dist.state_space dist.plaus per.plaus s0 m)
        (fun s hs => hL s (List.mem_cons_of_mem s0 hs)) with ⟨F, hFsome, hFget⟩
    have hstep : necStep dist action m s0 =
        some (necPairs dist.state_space dist.plaus per.plaus s0 m) := by
      unfold necStep
      rw [hsome]
      rfl
    refine ⟨F, ?hsome2, fun t => ?hget2⟩
    · rw [List.foldlM_cons, hstep]
      exact hFsome
    · rw [hFget t]
      have hmap : ∀ u : PState,
          ((dist.state_space.filter (fun sNC => decide (u ≠ sNC))).map
            (fun sNC => max (1 - dictGet dist.plaus s0) (1 - dictGet per.plaus sNC))) =
          ((dist.state_space.filter (fun sNC => decide (u ≠ sNC))).map
            (fun sNC => max (1 - dictGet dist.plaus s0)
              (1 - actionPi action s0 sNC))) := by
        intro u
        apply List.map_congr_left
        intro sNC _
        rw [hget sNC]
        unfold actionPi
        rw [he]
      by_cases h1 : t ∈ dist.state_space
      · rw [if_pos h1, necPairs_get _ _ _ _ _ hnd, if_pos h1, hmap t,
          List.flatMap_cons, List.foldl_append, if_pos h1]
      · rw [if_neg h1, necPairs_get _ _ _ _ _ hnd, if_neg h1, if_neg h1]

theorem necdist_char {dist : PosDist} {action : PosAction}
    (hfind : ∀ s0 ∈ dist.state_space, ∃ e,
      action.find_applicable_effect s0 = some e)
    (hnd : dist.state_space.Nodup) :
    ∃ nd, compute_necdist_from_pos_action dist action = some nd ∧
      nd.state_space = dist.state_space ∧
      ∀ t, dictGet nd.plaus t =
        if t ∈ dist.state_space then necFormula dist action t else 0 := by
  rcases nec_outer_char dist action hnd dist.state_space
      (dist.state_space.foldl (fun m s => dictSet m s 1) []) hfind with ⟨F, hFsome, hFget⟩
  refine ⟨⟨dist.state_space, F⟩, ?hsome, rfl, fun t => ?hget⟩
  · rw [compute_necdist_from_pos_action]
    rw [hFsome]
    rfl
  · rw [hFget t]
    by_cases h1 : t ∈ dist.state_space
    · rw [if_pos h1, if_pos h1, necFormula]
      congr 1
      rw [init_fold_get, if_pos h1]
    · rw [if_neg h1, if_neg h1, init_fold_get, if_neg h1]
      rfl

theorem dist_valid_parts {d : PosDist} (h : d.is_valid = some true) :
    (∀ kv ∈ d.plaus, kv.1 ∈ d.state_space) ∧ valuesMax d.plaus = some 1 ∧
    (∀ kv ∈ d.plaus, 0 ≤ kv.2 ∧ kv.2 ≤ 1) := by
  unfold PosDist.is_valid at h
  split at h
  · cases h
  · rename_i hkeys
    split at h
    · cases h
    · rename_i mx hm
      split at h
      · cases h
      · rename_i hmx
        rw [Option.some_inj] at h
        exact ⟨not_not.mp hkeys, (not_not.mp hmx) ▸ hm, of_decide_eq_true h⟩

theorem filter_length_one_unique {l : List PosEffect} {p : PosEffect → Bool}
    (h : (l.filter p).length = 1) :
    ∀ x ∈ l, p x = true → ∀ y ∈ l, p y = true → x = y := by
  intro x hx hpx y hy hpy
  rcases List.length_eq_one.mp h with ⟨z, hz⟩
  have hxz : x = z := by
    have := List.mem_filter.mpr ⟨hx, hpx⟩
    rw [hz] at this
    exact List.mem_singleton.mp this
  have hyz : y = z := by
    have := List.mem_filter.mpr ⟨hy, hpy⟩
    rw [hz] at this
    exact List.mem_singleton.mp this
  rw [hxz, hyz]

theorem applicable_effect_unique {a : PosAction} {sp : StateSpace}
    (hv : a.is_valid sp = some true) {s : PState} (hs : s ∈ sp) :
    ∀ e1 ∈ a.effects, satisfies s e1 = true →
    ∀ e2 ∈ a.effects, satisfies s e2 = true → e1 = e2 :=
  filter_length_one_unique ((action_valid_parts hv).2 s hs)

theorem normal_witness {dist : PosDist} {action : PosAction}
    (hdist : dist.is_valid = some true)
    (hnodup : (dist.plaus.map Prod.fst).Nodup)
    (hvalid : action.is_valid dist.state_space = some true) :
    ∃ s0 e t, s0 ∈ dist.state_space ∧ dictGet dist.plaus s0 = 1 ∧
      action.find_applicable_effect s0 = some e ∧ piVal e s0 t = 1 ∧
      (∃ c ∈ e.consequents, apply_consequent (c.2.1, c.2.2) s0 = t) ∧
      1 ≤ posFormula dist action t := by
  rcases dist_valid_parts hdist with ⟨hkeys, hmax, hrange⟩
  rcases (valuesMax_spec hmax).1 with ⟨kv0, hkv0, hone⟩
  have hget0 : dictGet dist.plaus kv0.1 = 1 := by
    rw [dictGet_of_mem_nodup hnodup hkv0, hone]
  have hs0sp : kv0.1 ∈ dist.state_space := hkeys kv0 hkv0
  rcases find_of_valid hvalid hs0sp with ⟨e, he⟩
  have heff : e.is_valid_pos_dist = some true :=
    (action_valid_parts hvalid).1 e (find_applicable_spec he).1
  rcases effect_valid_parts heff with ⟨hbounds, hex1⟩
  rcases exists_piVal_one kv0.1 (fun c hc => (hbounds c hc).2) hex1 with ⟨t, hpi, htc⟩
  refine ⟨kv0.1, e, t, hs0sp, hget0, he, hpi, htc, ?hpos⟩
  have hkv0nz : kv0 ∈ nonZeroItems dist.plaus :=
    List.mem_filter.mpr ⟨hkv0, decide_eq_true (by rw [hone]; exact one_pos)⟩
  have hcontr : min (dictGet dist.plaus kv0.1) (actionPi action kv0.1 t) = 1 := by
    rw [hget0]
    have : actionPi action kv0.1 t = 1 := by
      unfold actionPi
      rw [he]
      exact hpi
    rw [this, min_self]
  calc (1 : ℚ) = min (dictGet dist.plaus kv0.1) (actionPi action kv0.1 t) := hcontr.symm
    _ ≤ posFormula dist action t :=
      foldl_max_le_of_mem (List.mem_map_of_mem _ hkv0nz) 0

theorem posFormula_nonneg (dist : PosDist) (action : PosAction) (t : PState) :
    0 ≤ posFormula dist action t :=
  foldl_max_init_le _ 0

theorem posFormula_le_one {dist : PosDist} {action : PosAction}
    (hle : ∀ kv ∈ dist.plaus, kv.2 ≤ 1) (t : PState) :
    posFormula dist action t ≤ 1 := by
  apply foldl_max_le zero_le_one
  intro x hx
  rcases List.mem_map.mp hx with ⟨kv, _, heq⟩
  calc x = min (dictGet dist.plaus kv.1) (actionPi action kv.1 t) := heq.symm
    _ ≤ dictGet dist.plaus kv.1 := min_le_left _ _
    _ ≤ 1 := dictGet_le hle zero_le_one kv.1

/-- Claim C2: PosPlanningProblem.is_valid must accept a problem whose state
space contains a state exactly equal to the goal set, but the code compares
with a proper-subset test and rejects it: on the concrete problem whose only
state equals its goal, the initial distribution and the (empty) action list
both validate, the goal set equals a space state, yet is_valid returns
false. -/
theorem claim_C2 :
    PosPlanningProblem.is_valid problemExactGoal = some false ∧
    stP ∈ problemExactGoal.initial_distribution.state_space ∧
    problemExactGoal.goal = stP ∧
    PosDist.is_valid problemExactGoal.initial_distribution = some true ∧
    actionsValidLoop problemExactGoal.initial_distribution.state_space
      problemExactGoal.actions = some true := by
  refine ⟨?h1, ?h2, ?h3, ?h4, ?h5⟩ <;> decide

/-- Claim C3: the spec requires two PosDist values to be equal, with equal
hashes, exactly when their positive (state, plausibility) pairs agree, but
the class defines neither eq nor hash, so Python falls back to object
identity: two distinct objects carrying the very same positive pairs compare
unequal and hash differently. -/
theorem claim_C3 :
    posPairs ⟨[stP], [(stP, 1)]⟩ = posPairs ⟨[stP], [(stP, 1), (stEmpty, 0)]⟩ ∧
    pyPosDistEq (0, ⟨[stP], [(stP, 1)]⟩) (1, ⟨[stP], [(stP, 1), (stEmpty, 0)]⟩) = false ∧
    pyPosDistHash (0, ⟨[stP], [(stP, 1)]⟩) ≠
      pyPosDistHash (1, ⟨[stP], [(stP, 1), (stEmpty, 0)]⟩) := by
  refine ⟨?h1, ?h2, ?h3⟩ <;> decide

/-- Claim C7, counterexample: is_valid is claimed never to raise, even on a
distribution with no stored entries, but on the empty distribution the code
reaches Python max() of an empty sequence, which raises ValueError (modelled
as none). -/
theorem claim_C7_counterexample : PosDist.is_valid ⟨[], []⟩ = none := rfl

/-- Claim C7, amended: on every PosDist with at least one stored entry,
is_valid returns a boolean and never raises, true exactly when every stored
key belongs to the state space, every stored value lies in [0,1] and the
maximum stored value equals exactly 1; on a distribution with no stored
entries it raises instead of failing closed. -/
theorem claim_C7_amended (d : PosDist) (hne : d.plaus ≠ []) :
    ∃ b, d.is_valid = some b ∧
      (b = true ↔ (∀ kv ∈ d.plaus, kv.1 ∈ d.state_space) ∧
        (∀ kv ∈ d.plaus, 0 ≤ kv.2 ∧ kv.2 ≤ 1) ∧ (∃ kv ∈ d.plaus, kv.2 = 1)) := by
  unfold PosDist.is_valid
  by_cases hkeys : ∀ kv ∈ d.plaus, kv.1 ∈ d.state_space
  · rw [if_neg (not_not_intro hkeys)]
    split
    · rename_i hvm
      exfalso
      rcases hpl : d.plaus with _ | ⟨kv0, rest⟩
      · exact hne hpl
      · rw [hpl, valuesMax] at hvm
        cases hvm
    · rename_i mx hvm
      split
      · rename_i hmx
        refine ⟨false, rfl, ?_⟩
        simp only [Bool.false_eq_true, false_iff]
        intro hrhs
        have h1 : valuesMax d.plaus = some 1 :=
          valuesMax_eq_one (fun kv hkv => (hrhs.2.1 kv hkv).2) hrhs.2.2
        rw [hvm] at h1
        exact hmx (Option.some_inj.mp h1)
      · rename_i hmx
        refine ⟨decide (∀ kv ∈ d.plaus, 0 ≤ kv.2 ∧ kv.2 ≤ 1), rfl, ?_⟩
        constructor
        · intro hdec
          have hrange := of_decide_eq_true hdec
          rcases (valuesMax_spec hvm).1 with ⟨kv1, hkv1, hval⟩
          exact ⟨hkeys, hrange, kv1, hkv1, hval.trans (not_not.mp hmx)⟩
        · intro hrhs
          exact decide_eq_true hrhs.2.1
  · rw [if_pos hkeys]
    refine ⟨false, rfl, ?_⟩
    simp only [Bool.false_eq_true, false_iff]
    intro hrhs
    exact hkeys hrhs.1

/-- Claim C7 witness: the amended statement applied to a concrete one-entry
valid distribution. -/
theorem claim_C7_witness :
    ∃ b, PosDist.is_valid ⟨[stP], [(stP, 1)]⟩ = some b ∧
      (b = true ↔ (∀ kv ∈ [(stP, (1 : ℚ))], kv.1 ∈ [stP]) ∧
        (∀ kv ∈ [(stP, (1 : ℚ))], 0 ≤ kv.2 ∧ kv.2 ≤ 1) ∧
        (∃ kv ∈ [(stP, (1 : ℚ))], kv.2 = 1)) :=
  claim_C7_amended ⟨[stP], [(stP, 1)]⟩ (by decide)

/-- Claim C5: for a distribution over a state space on which the action is
valid, possibility propagation succeeds and assigns to every state sN the
maximum, over predecessors with positive plausibility, of the minimum of the
predecessor plausibility and the transition plausibility — where the
transition plausibility is the maximum consequent plausibility among the
consequents of the (unique) applicable effect that map the predecessor to
sN, and states no predecessor reaches get 0. -/
theorem claim_C5 (dist : PosDist) (action : PosAction)
    (hvalid : action.is_valid dist.state_space = some true)
    (hkeys : ∀ kv ∈ dist.plaus, kv.1 ∈ dist.state_space) :
    ∃ pd, compute_posdist_from_curpos_action dist action = some pd ∧
      pd.state_space = dist.state_space ∧
      (∀ sN, dictGet pd.plaus sN = posFormula dist action sN) ∧
      (∀ s0 ∈ dist.state_space, ∀ e1 ∈ action.effects, satisfies s0 e1 = true →
        ∀ e2 ∈ action.effects, satisfies s0 e2 = true → e1 = e2) := by
  have hfind : ∀ kv ∈ nonZeroItems dist.plaus, ∃ e,
      action.find_applicable_effect kv.1 = some e :=
    fun kv hkv => find_of_valid hvalid (hkeys kv (List.mem_filter.mp hkv).1)
  rcases curpos_char hfind with ⟨pd, h1, h2, h3, _, _⟩
  exact ⟨pd, h1, h2, h3, fun s0 hs0 => applicable_effect_unique hvalid hs0⟩

/-- Claim C5 witness: the formula applied to the concrete distribution and
add-q action. -/
theorem claim_C5_witness :
    ∃ pd, compute_posdist_from_curpos_action distAddQ addQAction = some pd ∧
      pd.state_space = distAddQ.state_space ∧
      (∀ sN, dictGet pd.plaus sN = posFormula distAddQ addQAction sN) ∧
      (∀ s0 ∈ distAddQ.state_space, ∀ e1 ∈ addQAction.effects,
        satisfies s0 e1 = true →
        ∀ e2 ∈ addQAction.effects, satisfies s0 e2 = true → e1 = e2) :=
  claim_C5 distAddQ addQAction (by decide) (by decide)

/-- Claim C6: for a distribution over a duplicate-free state space on which
the action is valid, necessity propagation succeeds and assigns to every
space state sN the minimum, over every predecessor s0 of the full space and
every space state sNC distinct from sN, of max(1 - dist[s0], 1 - pi[sNC |
s0, a]), starting from 1 (so 1 when the range is empty). -/
theorem claim_C6 (dist : PosDist) (action : PosAction)
    (hvalid : action.is_valid dist.state_space = some true)
    (hnd : dist.state_space.Nodup) :
    ∃ nd, compute_necdist_from_pos_action dist action = some nd ∧
      nd.state_space = dist.state_space ∧
      ∀ sN ∈ dist.state_space, dictGet nd.plaus sN = necFormula dist action sN := by
  have hfind : ∀ s0 ∈ dist.state_space, ∃ e,
      action.find_applicable_effect s0 = some e :=
    fun s0 hs0 => find_of_valid hvalid hs0
  rcases necdist_char hfind hnd with ⟨nd, h1, h2, h3⟩
  refine ⟨nd, h1, h2, fun sN hsN => ?hval⟩
  rw [h3 sN, if_pos hsN]

/-- Claim C6 witness: the necessity formula applied to the concrete
distribution and add-q action. -/
theorem claim_C6_witness :
    ∃ nd, compute_necdist_from_pos_action distAddQ addQAction = some nd ∧
      nd.state_space = distAddQ.state_space ∧
      ∀ sN ∈ distAddQ.state_space,
        dictGet nd.plaus sN = necFormula distAddQ addQAction sN :=
  claim_C6 distAddQ addQAction (by decide) (by decide)

theorem apply_consequent_empty (s : PState) : apply_consequent (∅, ∅) s = s := by
  unfold apply_consequent
  ext x
  simp

theorem identity_find (s : PState) :
    identityAction.find_applicable_effect s = some ⟨∅, ∅, [(1, ∅, ∅)]⟩ := by
  have hs : satisfies s ⟨∅, ∅, [(1, ∅, ∅)]⟩ = true := by
    unfold satisfies
    simp
  unfold identityAction PosAction.find_applicable_effect
  simp only [List.find?_cons, hs]

theorem actionPi_identity (u t : PState) :
    actionPi identityAction u t = if u = t then 1 else 0 := by
  unfold actionPi
  rw [identity_find]
  unfold piVal
  simp only [List.filter_cons, List.filter_nil, apply_consequent_empty]
  by_cases hut : u = t
  · rw [if_pos hut]
    simp [hut]
  · rw [if_neg hut]
    simp [hut]

/-- Claim C9: applying the identity action — one effect, empty discriminants,
single consequent (1, empty, empty) — to any distribution whose stored
plausibilities are at most 1 (every plausibility is a value in [0,1] per the
data model) reproduces exactly the positive entries: every state keeps the
plausibility the distribution gives it if that is positive, and every other
state gets 0. -/
theorem claim_C9 (dist : PosDist) (hle : ∀ kv ∈ dist.plaus, kv.2 ≤ 1) :
    ∃ pd, compute_posdist_from_curpos_action dist identityAction = some pd ∧
      pd.state_space = dist.state_space ∧
      ∀ s, dictGet pd.plaus s =
        if 0 < dictGet dist.plaus s then dictGet dist.plaus s else 0 := by
  have hfind : ∀ kv ∈ nonZeroItems dist.plaus, ∃ e,
      identityAction.find_applicable_effect kv.1 = some e :=
    fun kv _ => ⟨_, identity_find kv.1⟩
  rcases curpos_char hfind with ⟨pd, h1, h2, h3, _, _⟩
  refine ⟨pd, h1, h2, fun s => ?_⟩
  rw [h3 s]
  unfold posFormula
  by_cases hpos : 0 < dictGet dist.plaus s
  · rw [if_pos hpos]
    apply le_antisymm
    · apply foldl_max_le (le_of_lt hpos)
      intro x hx
      rcases List.mem_map.mp hx with ⟨kv, _, heq⟩
      rw [← heq, actionPi_identity]
      by_cases hks : kv.1 = s
      · rw [if_pos hks, hks]
        exact min_le_left _ _
      · rw [if_neg hks]
        exact le_trans (min_le_right _ _) (le_of_lt hpos)
    · rcases dictGet_mem_of_ne_zero (ne_of_gt hpos) with ⟨kv, hkv, hk1, hk2⟩
      have hnz : kv ∈ nonZeroItems dist.plaus :=
        List.mem_filter.mpr ⟨hkv, decide_eq_true (by rw [hk2]; exact hpos)⟩
      have hc : min (dictGet dist.plaus kv.1) (actionPi identityAction kv.1 s) =
          dictGet dist.plaus s := by
        rw [hk1, actionPi_identity, if_pos rfl]
        exact min_eq_left (dictGet_le hle zero_le_one s)
      rw [← hc]
      exact foldl_max_le_of_mem (List.mem_map_of_mem _ hnz) 0
  · rw [if_neg hpos]
    apply le_antisymm
    · apply foldl_max_le (le_refl 0)
      intro x hx
      rcases List.mem_map.mp hx with ⟨kv, _, heq⟩
      rw [← heq, actionPi_identity]
      by_cases hks : kv.1 = s
      · rw [if_pos hks, hks]
        exact le_trans (min_le_left _ _) (not_lt.mp hpos)
      · rw [if_neg hks]
        exact min_le_right _ _
    · exact foldl_max_init_le _ 0

/-- Claim C9 witness: identity propagation on the concrete distribution. -/
theorem claim_C9_witness :
    ∃ pd, compute_posdist_from_curpos_action distAddQ identityAction = some pd ∧
      pd.state_space = distAddQ.state_space ∧
      ∀ s, dictGet pd.plaus s =
        if 0 < dictGet distAddQ.plaus s then dictGet distAddQ.plaus s else 0 :=
  claim_C9 distAddQ (by decide)

/-- Claim C10: possibility propagation preserves distribution validity — for
a valid distribution over a duplicate-free-keyed dict and an action valid on
its space, propagation succeeds, every stored value of the result lies in
[0,1], the maximum stored value is exactly 1, and whenever the action's
applicable consequents keep every space state inside the space, the result
passes is_valid. -/
theorem claim_C10 (dist : PosDist) (action : PosAction)
    (hdist : dist.is_valid = some true)
    (hnodup : (dist.plaus.map Prod.fst).Nodup)
    (hvalid : action.is_valid dist.state_space = some true) :
    ∃ pd, compute_posdist_from_curpos_action dist action = some pd ∧
      (∀ kv ∈ pd.plaus, 0 ≤ kv.2 ∧ kv.2 ≤ 1) ∧
      valuesMax pd.plaus = some 1 ∧
      (ClosedAction action dist.state_space → pd.is_valid = some true) := by
  obtain ⟨hkeys, hmax, hrange⟩ := dist_valid_parts hdist
  have hfind : ∀ kv ∈ nonZeroItems dist.plaus, ∃ e,
      action.find_applicable_effect kv.1 = some e :=
    fun kv hkv => find_of_valid hvalid (hkeys kv (List.mem_filter.mp hkv).1)
  rcases curpos_char hfind with ⟨pd, h1, h2, h3, h4, h5⟩
  have hval_le : ∀ t, posFormula dist action t ≤ 1 :=
    posFormula_le_one (fun kv hkv => (hrange kv hkv).2)
  have hbounds : ∀ kv ∈ pd.plaus, 0 ≤ kv.2 ∧ kv.2 ≤ 1 := by
    intro kv hkv
    have hv : kv.2 = dictGet pd.plaus kv.1 := (dictGet_of_mem_nodup h4 hkv).symm
    rw [hv, h3]
    exact ⟨posFormula_nonneg _ _ _, hval_le _⟩
  have hvm : valuesMax pd.plaus = some 1 := by
    apply valuesMax_eq_one (fun kv hkv => (hbounds kv hkv).2)
    rcases normal_witness hdist hnodup hvalid with ⟨s0, e, t, hs0, hone, hfe, hpi, htc, hge⟩
    have hval : dictGet pd.plaus t = 1 := by
      rw [h3]
      exact le_antisymm (hval_le t) hge
    rcases dictGet_mem_of_ne_zero (by rw [hval]; exact one_ne_zero) with ⟨kv, hkv, _, hk2⟩
    exact ⟨kv, hkv, by rw [hk2, hval]⟩
  refine ⟨pd, h1, hbounds, hvm, fun hcl => ?_⟩
  have hkeyscl : ∀ kv ∈ pd.plaus, kv.1 ∈ pd.state_space := by
    rw [h2]
    intro kv2 hkv2
    rcases h5 kv2 hkv2 with ⟨kv, hkvnz, e, he, c, hc, heq⟩
    have hs : kv.1 ∈ dist.state_space := hkeys kv (List.mem_filter.mp hkvnz).1
    rw [heq]
    exact hcl kv.1 hs e he c hc
  unfold PosDist.is_valid
  rw [if_neg (not_not_intro hkeyscl), hvm]
  show (if (1 : ℚ) ≠ 1 then (some false : Option Bool)
    else some (decide (∀ kv ∈ pd.plaus, 0 ≤ kv.2 ∧ kv.2 ≤ 1))) = some true
  rw [if_neg (by simp)]
  exact congrArg some (decide_eq_true hbounds)

/-- Claim C10 witness: validity preservation on the concrete distribution
and add-q action, whose consequents stay inside the space. -/
theorem claim_C10_witness :
    ∃ pd, compute_posdist_from_curpos_action distAddQ addQAction = some pd ∧
      (∀ kv ∈ pd.plaus, 0 ≤ kv.2 ∧ kv.2 ≤ 1) ∧
      valuesMax pd.plaus = some 1 ∧
      (ClosedAction addQAction distAddQ.state_space → pd.is_valid = some true) :=
  claim_C10 distAddQ addQAction (by decide) (by decide) (by decide)

/-- Claim C8, counterexample: for the concrete valid distribution and action
whose consequents leave the state space, the computed necessity of the empty
state is 1 while its computed possibility is 0, so the claimed duality
necessity less-or-equal possibility fails as stated. -/
theorem claim_C8_counterexample :
    PosDist.is_valid distSingle = some true ∧
    PosAction.is_valid addQAction distSingle.state_space = some true ∧
    compute_posdist_from_curpos_action distSingle addQAction =
      some ⟨[stEmpty], [(stQ, 1)]⟩ ∧
    compute_necdist_from_pos_action distSingle addQAction =
      some ⟨[stEmpty], [(stEmpty, 1)]⟩ ∧
    dictGet [(stQ, (1 : ℚ))] stEmpty < dictGet [(stEmpty, (1 : ℚ))] stEmpty :=
  ⟨by decide, by decide, rfl, rfl, by decide⟩

/-- Claim C8, amended: the necessity-possibility duality holds for every
valid distribution with duplicate-free keys and every action valid on its
duplicate-free state space, provided the action is closed over the space —
every state an applicable consequent produces from a space state lies back
in the space. Then both propagations succeed and the necessity value of
every state is at most its possibility value. -/
theorem claim_C8_amended (dist : PosDist) (action : PosAction)
    (hdist : dist.is_valid = some true)
    (hnodup : (dist.plaus.map Prod.fst).Nodup)
    (hvalid : action.is_valid dist.state_space = some true)
    (hsnd : dist.state_space.Nodup)
    (hcl : ClosedAction action dist.state_space) :
    ∃ pd nd, compute_posdist_from_curpos_action dist action = some pd ∧
      compute_necdist_from_pos_action dist action = some nd ∧
      ∀ s, dictGet nd.plaus s ≤ dictGet pd.plaus s := by
  obtain ⟨hkeys, hmax, hrange⟩ := dist_valid_parts hdist
  have hfind1 : ∀ kv ∈ nonZeroItems dist.plaus, ∃ e,
      action.find_applicable_effect kv.1 = some e :=
    fun kv hkv => find_of_valid hvalid (hkeys kv (List.mem_filter.mp hkv).1)
  have hfind2 : ∀ s0 ∈ dist.state_space, ∃ e,
      action.find_applicable_effect s0 = some e :=
    fun s0 hs0 => find_of_valid hvalid hs0
  rcases curpos_char hfind1 with ⟨pd, hp1, hp2, hp3, _, _⟩
  rcases necdist_char hfind2 hsnd with ⟨nd, hn1, hn2, hn3⟩
  rcases normal_witness hdist hnodup hvalid with ⟨s0, e, t, hs0, hone, hfe, hpi, htc, hge⟩
  have htsp : t ∈ dist.state_space := by
    rcases htc with ⟨c, hc, hceq⟩
    rw [← hceq]
    exact hcl s0 hs0 e hfe c hc
  refine ⟨pd, nd, hp1, hn1, fun s => ?_⟩
  rw [hp3 s, hn3 s]
  by_cases hs : s ∈ dist.state_space
  · rw [if_pos hs]
    by_cases hst : s = t
    · have h1 : necFormula dist action s ≤ 1 := foldl_min_le_init _ 1
      apply le_trans h1
      rw [hst]
      exact hge
    · have hapi : actionPi action s0 t = 1 := by
        unfold actionPi
        rw [hfe]
        exact hpi
      have hmem : max (1 - dictGet dist.plaus s0) (1 - actionPi action s0 t) ∈
          dist.state_space.flatMap (fun s1 =>
            (dist.state_space.filter (fun sNC => decide (s ≠ sNC))).map
              (fun sNC => max (1 - dictGet dist.plaus s1)
                (1 - actionPi action s1 sNC))) := by
        apply List.mem_flatMap.mpr
        refine ⟨s0, hs0, ?_⟩
        apply List.mem_map_of_mem
          (fun sNC => max (1 - dictGet dist.plaus s0) (1 - actionPi action s0 sNC))
        exact List.mem_filter.mpr ⟨htsp, decide_eq_true hst⟩
      have h2 : necFormula dist action s ≤
          max (1 - dictGet dist.plaus s0) (1 - actionPi action s0 t) :=
        foldl_min_le_of_mem hmem 1
      rw [hone, hapi] at h2
      norm_num at h2
      exact le_trans h2 (posFormula_nonneg _ _ _)
  · rw [if_neg hs]
    exact posFormula_nonneg _ _ _

/-- Claim C8 witness: the amended duality applied to the concrete closed
distribution and add-q action. -/
theorem claim_C8_witness :
    ∃ pd nd, compute_posdist_from_curpos_action distAddQ addQAction = some pd ∧
      compute_necdist_from_pos_action distAddQ addQAction = some nd ∧
      ∀ s, dictGet nd.plaus s ≤ dictGet pd.plaus s :=
  claim_C8_amended distAddQ addQAction (by decide) (by decide) (by decide) (by decide)
    (by
      intro s hs e he c hc
      have hsat : satisfies s ⟨∅, ∅, [(1, {"q"}, ∅)]⟩ = true := by
        unfold satisfies
        simp
      have hfe : addQAction.find_applicable_effect s = some ⟨∅, ∅, [(1, {"q"}, ∅)]⟩ := by
        unfold addQAction PosAction.find_applicable_effect
        simp only [List.find?_cons, hsat]
      rw [hfe] at he
      have he2 : e = ⟨∅, ∅, [(1, {"q"}, ∅)]⟩ := (Option.some_inj.mp he).symm
      subst he2
      have hc2 : c = (1, {"q"}, ∅) := List.mem_singleton.mp hc
      subst hc2
      rcases List.mem_cons.mp hs with h1 | h1
      · subst h1
        decide
      · have h2 : s = stP := List.mem_singleton.mp h1
        subst h2
        decide)

theorem loop_stuck : ∀ (fuel : Nat) (sn : List Nat) (c : Nat)
    (q : List (Nat × PosDist × List PosAction)),
    (∀ o ∈ sn, o < c) → q ≠ [] →
    (∀ nd ∈ q, nd.2.1 = loopDist) →
    searchFuel problemLoop 1 fuel sn c q = SearchResult.fuelOut := by
  intro fuel
  induction fuel with
  | zero => intro sn c q _ _ _; rfl
  | succ n ih =>
    intro sn c q hsn hq hdists
    rcases q with _ | ⟨⟨oid, pladist, plan⟩, rest⟩
    · exact absurd rfl hq
    · have hdist : pladist = loopDist := hdists _ (List.mem_cons_self _ _)
      subst hdist
      rw [searchFuel]
      have hnec : compute_nec_from_pos problemLoop.goal_states loopDist = 0 := by
        show min 1 (1 - dictGet loopDist.plaus stEmpty) = 0
        rw [show dictGet loopDist.plaus stEmpty = (1 : ℚ) from rfl]
        norm_num
      rw [hnec, if_neg (by norm_num)]
      have hstep : compute_posdist_from_curpos_action loopDist identityAction =
          some loopDist := rfl
      have hexp : expandLoop loopDist plan problemLoop.actions rest sn c =
          some (rest ++ [(c, loopDist, plan ++ [identityAction])], sn ++ [c], c + 1) := by
        show expandLoop loopDist plan [identityAction] rest sn c = _
        rw [expandLoop, hstep]
        show (if c ∈ sn then expandLoop loopDist plan [] rest sn (c + 1)
          else expandLoop loopDist plan []
            (rest ++ [(c, loopDist, plan ++ [identityAction])]) (sn ++ [c]) (c + 1)) = _
        rw [if_neg (fun hc => absurd (hsn c hc) (lt_irrefl c))]
        rw [expandLoop]
      rw [hexp]
      apply ih
      · intro o ho
        rcases List.mem_append.mp ho with h1 | h1
        · exact Nat.lt_trans (hsn o h1) (Nat.lt_succ_self c)
        · rw [List.mem_singleton.mp h1]
          exact Nat.lt_succ_self c
      · intro hctr
        rcases List.append_eq_nil.mp hctr with ⟨_, h2⟩
        cases h2
      · intro nd hnd
        rcases List.mem_append.mp hnd with h1 | h1
        · exact hdists nd (List.mem_cons_of_mem _ h1)
        · have h2 := List.mem_singleton.mp h1
          subst h2
          rfl

/-- Claim C4: the claim that the seen set prevents any distribution from
being enqueued twice and so forces termination fails on the code: the seen
set compares by object identity (PosDist defines no eq or hash), every
propagated distribution is a fresh object, and on the concrete valid problem
whose identity action reproduces the same distribution data forever with
goal necessity 0 below gamma = 1, the search loop never terminates — it
exhausts every fuel bound. -/
theorem claim_C4 :
    PosPlanningProblem.is_valid problemLoop = some true ∧
    ∀ fuel, search_single_gamma_acceptable problemLoop 1 fuel =
      SearchResult.fuelOut := by
  constructor
  · decide
  · intro fuel
    unfold search_single_gamma_acceptable
    apply loop_stuck
    · intro o ho
      rw [List.mem_singleton.mp ho]
      exact Nat.one_pos
    · intro hctr
      cases hctr
    · intro nd hnd
      have h2 := List.mem_singleton.mp hnd
      subst h2
      rfl

theorem allSeqs_length {acts : List PosAction} :
    ∀ {k : Nat} {ps : List PosAction}, ps ∈ allSeqs acts k → ps.length = k := by
  intro k
  induction k with
  | zero =>
    intro ps h
    rw [List.mem_singleton.mp h]
    rfl
  | succ n ih =>
    intro ps h
    rw [allSeqs] at h
    rcases List.mem_flatMap.mp h with ⟨q, hq, hmap⟩
    rcases List.mem_map.mp hmap with ⟨a, _, heq⟩
    rw [← heq, List.length_append, ih hq]
    rfl

theorem allSeqs_mem_actions {acts : List PosAction} :
    ∀ {k : Nat} {ps : List PosAction}, ps ∈ allSeqs acts k → ∀ a ∈ ps, a ∈ acts := by
  intro k
  induction k with
  | zero =>
    intro ps h a ha
    rw [List.mem_singleton.mp h] at ha
    cases ha
  | succ n ih =>
    intro ps h a ha
    rw [allSeqs] at h
    rcases List.mem_flatMap.mp h with ⟨q, hq, hmap⟩
    rcases List.mem_map.mp hmap with ⟨b, hb, heq⟩
    rw [← heq] at ha
    rcases List.mem_append.mp ha with h1 | h1
    · exact ih hq a h1
    · rw [List.mem_singleton.mp h1]
      exact hb

theorem mem_allSeqs_self {acts : List PosAction} (ps : List PosAction) :
    (∀ a ∈ ps, a ∈ acts) → ps ∈ allSeqs acts ps.length := by
  induction ps using List.reverseRecOn with
  | nil =>
    intro
    exact List.mem_singleton.mpr rfl
  | append_singleton q a ihq =>
    intro h
    have hlen : (q ++ [a]).length = q.length + 1 := by simp
    rw [hlen, allSeqs]
    apply List.mem_flatMap.mpr
    refine ⟨q, ihq (fun b hb => h b (List.mem_append.mpr (Or.inl hb))), ?_⟩
    exact List.mem_map_of_mem _ (h a (List.mem_append.mpr (Or.inr (List.mem_singleton.mpr rfl))))

theorem allSeqs_nil_ge {acts : List PosAction} {d : Nat}
    (h : allSeqs acts d = []) : ∀ k, allSeqs acts (d + k) = [] := by
  intro k
  induction k with
  | zero => exact h
  | succ n ih =>
    show expandP acts (allSeqs acts (d + n)) = []
    rw [ih]
    rfl

theorem allSeqs_succ (acts : List PosAction) (k : Nat) :
    allSeqs acts (k + 1) = expandP acts (allSeqs acts k) := rfl

theorem expandP_append (acts : List PosAction) (l1 l2 : List (List PosAction)) :
    expandP acts (l1 ++ l2) = expandP acts l1 ++ expandP acts l2 := by
  unfold expandP
  rw [List.flatMap_append]

theorem expandP_singleton (acts : List PosAction) (ps : List PosAction) :
    expandP acts [ps] = acts.map (fun a => ps ++ [a]) := by
  unfold expandP
  simp

theorem expandP_eq_nil {acts : List PosAction} {done : List (List PosAction)}
    (h : expandP acts done = []) : done = [] ∨ acts = [] := by
  rcases done with _ | ⟨ps, rest⟩
  · exact Or.inl rfl
  · right
    have h2 := List.flatMap_eq_nil_iff.mp h ps (List.mem_cons_self ps rest)
    exact List.map_eq_nil_iff.mp h2

theorem applyPlan_append_singleton (d : PosDist) (ps : List PosAction) (a : PosAction) :
    applyPlan d (ps ++ [a]) =
      (applyPlan d ps).bind (fun x => compute_posdist_from_curpos_action x a) := by
  unfold applyPlan
  rw [List.foldlM_append]
  rcases h : List.foldlM compute_posdist_from_curpos_action d ps with _ | x
  · rfl
  · show List.foldlM compute_posdist_from_curpos_action x [a] =
      compute_posdist_from_curpos_action x a
    rcases h2 : compute_posdist_from_curpos_action x a with _ | y
    · rw [List.foldlM_cons, h2]
      rfl
    · rw [List.foldlM_cons, h2]
      rfl

theorem childNodes_cons (pladist : PosDist) (plan : List PosAction)
    (a : PosAction) (rest : List PosAction) :
    childNodes pladist plan (a :: rest) =
      (compute_posdist_from_curpos_action pladist a).bind (fun nd =>
        (childNodes pladist plan rest).bind (fun ch =>
          some ((nd, plan ++ [a]) :: ch))) := by
  unfold childNodes
  rw [List.mapM_cons]
  rcases h : compute_posdist_from_curpos_action pladist a with _ | nd
  · rfl
  · show (some (nd, plan ++ [a]) >>= fun b =>
        (rest.mapM fun a2 => (compute_posdist_from_curpos_action pladist a2).map
          (fun nd2 => (nd2, plan ++ [a2]))) >>= fun bs => pure (b :: bs)) = _
    rcases h2 : rest.mapM (fun a2 => (compute_posdist_from_curpos_action pladist a2).map
        (fun nd2 => (nd2, plan ++ [a2]))) with _ | ch
    · rfl
    · rfl

theorem childNodes_sound {init pladist : PosDist} {plan : List PosAction}
    (hd : applyPlan init plan = some pladist) :
    ∀ {acts : List PosAction} {ch : List (PosDist × List PosAction)},
    childNodes pladist plan acts = some ch →
      ch.map Prod.snd = acts.map (fun a => plan ++ [a]) ∧
      ∀ nd ∈ ch, applyPlan init nd.2 = some nd.1 := by
  intro acts
  induction acts with
  | nil =>
    intro ch h
    have hch : ch = [] := by
      have : childNodes pladist plan [] = some [] := rfl
      rw [this, Option.some_inj] at h
      exact h.symm
    subst hch
    exact ⟨rfl, fun nd hnd => absurd hnd (List.not_mem_nil nd)⟩
  | cons a rest ih =>
    intro ch h
    rw [childNodes_cons] at h
    rcases ha : compute_posdist_from_curpos_action pladist a with _ | nd
    · rw [ha] at h
      cases h
    · rw [ha] at h
      rcases hrest : childNodes pladist plan rest with _ | ch2
      · rw [hrest] at h
        cases h
      · rw [hrest] at h
        have hch : ch = (nd, plan ++ [a]) :: ch2 := (Option.some_inj.mp h).symm
        subst hch
        obtain ⟨hmap2, hall2⟩ := ih hrest
        constructor
        · rw [List.map_cons, hmap2, List.map_cons]
        · intro nd2 hnd2
          rcases List.mem_cons.mp hnd2 with h1 | h1
          · subst h1
            rw [applyPlan_append_singleton, hd]
            exact ha
          · exact hall2 nd2 h1

theorem expandLoop_sim (pladist : PosDist) (plan : List PosAction) :
    ∀ (acts : List PosAction) (q : List (Nat × PosDist × List PosAction))
      (sn : List Nat) (c : Nat), (∀ o ∈ sn, o < c) →
    (childNodes pladist plan acts = none ∧
      expandLoop pladist plan acts q sn c = none) ∨
    (∃ ch q2 sn2 c2, childNodes pladist plan acts = some ch ∧
      expandLoop pladist plan acts q sn c = some (q2, sn2, c2) ∧
      q2.map stripNode = q.map stripNode ++ ch ∧ (∀ o ∈ sn2, o < c2)) := by
  intro acts
  induction acts with
  | nil =>
    intro q sn c hsn
    right
    exact ⟨[], q, sn, c, rfl, rfl, by simp, hsn⟩
  | cons a rest ih =>
    intro q sn c hsn
    rcases hfa : compute_posdist_from_curpos_action pladist a with _ | nd
    · left
      constructor
      · rw [childNodes_cons, hfa]
        rfl
      · rw [expandLoop, hfa]
    · have hsn2 : ∀ o ∈ sn ++ [c], o < c + 1 := by
        intro o ho
        rcases List.mem_append.mp ho with h1 | h1
        · exact Nat.lt_trans (hsn o h1) (Nat.lt_succ_self c)
        · rw [List.mem_singleton.mp h1]
          exact Nat.lt_succ_self c
      have hnotin : c ∉ sn := fun hc => absurd (hsn c hc) (lt_irrefl c)
      rcases ih (q ++ [(c, nd, plan ++ [a])]) (sn ++ [c]) (c + 1) hsn2 with
        ⟨hcn, hel⟩ | ⟨ch, q2, sn2, c2, hcn, hel, hmap, hlt⟩
      · left
        constructor
        · rw [childNodes_cons, hfa, hcn]
          rfl
        · rw [expandLoop, hfa]
          show (if c ∈ sn then expandLoop pladist plan rest q sn (c + 1)
            else expandLoop pladist plan rest
              (q ++ [(c, nd, plan ++ [a])]) (sn ++ [c]) (c + 1)) = none
          rw [if_neg hnotin]
          exact hel
      · right
        refine ⟨(nd, plan ++ [a]) :: ch, q2, sn2, c2, ?hcn2, ?hel2, ?hmap2, hlt⟩
        · rw [childNodes_cons, hfa, hcn]
          rfl
        · rw [expandLoop, hfa]
          show (if c ∈ sn then expandLoop pladist plan rest q sn (c + 1)
            else expandLoop pladist plan rest
              (q ++ [(c, nd, plan ++ [a])]) (sn ++ [c]) (c + 1)) = some (q2, sn2, c2)
          rw [if_neg hnotin]
          exact hel
        · rw [hmap, List.map_append]
          simp [stripNode]

theorem searchFuel_sim (problem : PosPlanningProblem) (gamma : Plausibility) :
    ∀ (n : Nat) (sn : List Nat) (c : Nat)
      (q : List (Nat × PosDist × List PosAction)), (∀ o ∈ sn, o < c) →
    searchFuel problem gamma n sn c q =
      pureSearch problem gamma n (q.map stripNode) := by
  intro n
  induction n with
  | zero => intros; rfl
  | succ m ih =>
    intro sn c q hsn
    rcases q with _ | ⟨⟨oid, pladist, plan⟩, rest⟩
    · rfl
    · rw [searchFuel, List.map_cons,
        show stripNode (oid, pladist, plan) = (pladist, plan) from rfl, pureSearch]
      by_cases htest : gamma ≤ compute_nec_from_pos problem.goal_states pladist
      · rw [if_pos htest, if_pos htest]
      · rw [if_neg htest, if_neg htest]
        rcases expandLoop_sim pladist plan problem.actions rest sn c hsn with
          ⟨hcn, hel⟩ | ⟨ch, q2, sn2, c2, hcn, hel, hmap, hlt⟩
        · rw [hel, hcn]
        · rw [hel, hcn]
          show searchFuel problem gamma m sn2 c2 q2 =
            pureSearch problem gamma m (List.map stripNode rest ++ ch)
          rw [ih sn2 c2 q2 hlt, hmap]

theorem bfsInv_init (problem : PosPlanningProblem) (gamma : Plausibility) :
    BfsInv problem gamma [(problem.initial_distribution, [])] := by
  refine ⟨0, [], [[]], rfl, ?hq, ?hnodes, ?hlt, ?hdone⟩
  · simp [expandP]
  · intro nd hnd
    rw [List.mem_singleton.mp hnd]
    rfl
  · intro k hk
    exact absurd hk (Nat.not_lt_zero k)
  · intro ps hps
    cases hps

theorem bfsInv_head {problem : PosPlanningProblem} {gamma : Plausibility}
    {nd : PosDist × List PosAction} {rest : List (PosDist × List PosAction)}
    (hinv : BfsInv problem gamma (nd :: rest)) :
    ∃ d done ts,
      allSeqs problem.actions d = done ++ nd.2 :: ts ∧
      rest.map Prod.snd = ts ++ expandP problem.actions done ∧
      (∀ nd2 ∈ nd :: rest, applyPlan problem.initial_distribution nd2.2 = some nd2.1) ∧
      (∀ k, k < d → ∀ ps ∈ allSeqs problem.actions k, FailsPlan problem gamma ps) ∧
      (∀ ps ∈ done, FailsPlan problem gamma ps) := by
  rcases hinv with ⟨d, done, todo, hseq, hq, hnodes, hlt, hdone⟩
  rcases todo with _ | ⟨t, ts⟩
  · rw [List.append_nil] at hseq
    rw [List.nil_append] at hq
    rw [List.map_cons] at hq
    refine ⟨d + 1, [], rest.map Prod.snd, ?hseq2, ?hq2, hnodes, ?hlt2, ?hdone2⟩
    · rw [allSeqs_succ, hseq, ← hq]
      rfl
    · show rest.map Prod.snd = rest.map Prod.snd ++ expandP problem.actions []
      simp [expandP]
    · intro k hk ps hps
      rcases Nat.lt_succ_iff_lt_or_eq.mp hk with h1 | h1
      · exact hlt k h1 ps hps
      · subst h1
        rw [hseq] at hps
        exact hdone ps hps
    · intro ps hps
      cases hps
  · rw [List.map_cons] at hq
    have hhd : nd.2 = t ∧ rest.map Prod.snd = ts ++ expandP problem.actions done := by
      injection hq with h1 h2
      exact ⟨h1, h2⟩
    refine ⟨d, done, ts, ?hseq3, hhd.2, hnodes, hlt, hdone⟩
    rw [hseq, hhd.1]

theorem pure_bfs (problem : PosPlanningProblem) (gamma : Plausibility) :
    ∀ (n : Nat) (q : List (PosDist × List PosAction)), BfsInv problem gamma q →
    (∀ plan, pureSearch problem gamma n q = SearchResult.found plan →
      GoodPlan problem gamma plan) ∧
    (pureSearch problem gamma n q = SearchResult.noplan →
      AllPlansFail problem gamma) := by
  intro n
  induction n with
  | zero =>
    intro q _
    constructor
    · intro plan h
      exact SearchResult.noConfusion h
    · intro h
      exact SearchResult.noConfusion h
  | succ m ih =>
    intro q hinv
    rcases q with _ | ⟨⟨pladist, plan⟩, rest⟩
    · constructor
      · intro p h
        rw [pureSearch] at h
        exact SearchResult.noConfusion h
      · intro _
        rcases hinv with ⟨d, done, todo, hseq, hq, _, hlt, hdone⟩
        have h0 : todo = [] ∧ expandP problem.actions done = [] :=
          List.append_eq_nil.mp (by simpa using hq.symm)
        intro ps hps
        rcases expandP_eq_nil h0.2 with hdnil | hanil
        · have hnil : allSeqs problem.actions d = [] := by
            rw [hseq, hdnil, h0.1]
            rfl
          by_cases hlen : ps.length < d
          · exact hlt _ hlen _ (mem_allSeqs_self ps hps)
          · exfalso
            rcases Nat.le.dest (not_lt.mp hlen) with ⟨k, hk⟩
            have hnil2 : allSeqs problem.actions ps.length = [] := by
              rw [← hk]
              exact allSeqs_nil_ge hnil k
            have hmem := mem_allSeqs_self ps hps
            rw [hnil2] at hmem
            exact List.not_mem_nil ps hmem
        · have hps_nil : ps = [] := by
            cases ps with
            | nil => rfl
            | cons a ps2 =>
              have := hps a (List.mem_cons_self a ps2)
              rw [hanil] at this
              exact absurd this (List.not_mem_nil a)
          subst hps_nil
          by_cases hd0 : 0 < d
          · apply hlt 0 hd0 []
            exact List.mem_singleton.mpr rfl
          · have hdeq : d = 0 := Nat.eq_zero_of_not_pos hd0
            subst hdeq
            have hdone_eq : done = [[]] := by
              rw [h0.1, List.append_nil] at hseq
              exact hseq.symm
            apply hdone []
            rw [hdone_eq]
            exact List.mem_singleton.mpr rfl
    · obtain ⟨d, done, ts, hseq, hq, hnodes, hlt, hdone⟩ := bfsInv_head hinv
      rw [pureSearch]
      by_cases htest : gamma ≤ compute_nec_from_pos problem.goal_states pladist
      · rw [if_pos htest]
        constructor
        · intro p h
          have hp : plan = p := by
            injection h
          subst hp
          have hplanmem : plan ∈ allSeqs problem.actions d := by
            rw [hseq]
            exact List.mem_append.mpr (Or.inr (List.mem_cons_self _ _))
          have hlen : plan.length = d := allSeqs_length hplanmem
          refine ⟨allSeqs_mem_actions hplanmem, ⟨pladist, ?hd, htest⟩, ?hshort⟩
          · exact hnodes (pladist, plan) (List.mem_cons_self _ _)
          · intro ps hlt2 hmem
            exact hlt ps.length (hlen ▸ hlt2) ps (mem_allSeqs_self ps hmem)
        · intro h
          exact SearchResult.noConfusion h
      · rw [if_neg htest]
        rcases hch : childNodes pladist plan problem.actions with _ | ch
        · constructor
          · intro p h
            exact SearchResult.noConfusion h
          · intro h
            exact SearchResult.noConfusion h
        · have hd : applyPlan problem.initial_distribution plan = some pladist :=
            hnodes _ (List.mem_cons_self _ _)
          obtain ⟨hchmap, hchnodes⟩ := childNodes_sound hd hch
          have hfails : FailsPlan problem gamma plan := ⟨pladist, hd, not_le.mp htest⟩
          have hinv2 : BfsInv problem gamma (rest ++ ch) := by
            refine ⟨d, done ++ [plan], ts, ?hseq2, ?hq2, ?hnodes2, hlt, ?hdone2⟩
            · rw [hseq, ← List.append_cons]
            · rw [List.map_append, hq, hchmap, expandP_append, expandP_singleton,
                List.append_assoc]
            · intro nd2 hnd2
              rcases List.mem_append.mp hnd2 with h1 | h1
              · exact hnodes nd2 (List.mem_cons_of_mem _ h1)
              · exact hchnodes nd2 h1
            · intro ps hps
              rcases List.mem_append.mp hps with h1 | h1
              · exact hdone ps h1
              · rw [List.mem_singleton.mp h1]
                exact hfails
          exact ih (rest ++ ch) hinv2

/-- Claim C1: with the goal test modelled from the spec (the necessity of the
derived goal-state set under the current frontier distribution), a bounded
run of search_single_gamma_acceptable on a valid problem with gamma in [0,1]
satisfies the claim: if it returns a plan, that plan is built from the
problem's actions, its frontier distribution passes the goal test, and every
strictly shorter plan built from the problem's actions fails the test — it
is a shortest gamma-acceptable plan, the first in breadth-first order; and
if the frontier empties the result is the no-plan value, not an error, and
every plan built from the problem's actions fails the test. -/
theorem claim_C1 (problem : PosPlanningProblem) (gamma : Plausibility) (fuel : Nat)
    (hvalid : problem.is_valid = some true) (hg0 : 0 ≤ gamma) (hg1 : gamma ≤ 1) :
    (∀ plan, search_single_gamma_acceptable problem gamma fuel =
        SearchResult.found plan → GoodPlan problem gamma plan) ∧
    (search_single_gamma_acceptable problem gamma fuel = SearchResult.noplan →
      AllPlansFail problem gamma) := by
  unfold search_single_gamma_acceptable
  rw [searchFuel_sim problem gamma fuel [0] 1 _ (by
    intro o ho
    rw [List.mem_singleton.mp ho]
    exact Nat.one_pos)]
  exact pure_bfs problem gamma fuel _ (bfsInv_init problem gamma)

/-- Claim C1 witness: the search statement applied to the concrete valid
one-action problem at gamma 1 with fuel 3. -/
theorem claim_C1_witness :
    (∀ plan, search_single_gamma_acceptable problemAddQ 1 3 =
        SearchResult.found plan → GoodPlan problemAddQ 1 plan) ∧
    (search_single_gamma_acceptable problemAddQ 1 3 = SearchResult.noplan →
      AllPlansFail problemAddQ 1) :=
  claim_C1 problemAddQ 1 3 (by decide) (by norm_num) (by norm_num)

end PPR
